import Mathlib

/-!
Shallow embedding of `climlab/process/time_dependent_process.py`
(class `TimeDependentProcess`), the time-stepping and tendency-composition
engine of the climlab process framework.

Conventions of the embedding:
* numpy arrays holding state / diagnostic / tendency values are modelled
  element-wise by a single rational number per variable (all array
  operations in the source are element-wise and shape-preserving, so every
  per-variable claim is faithfully captured per element; floating point is
  modelled by exact rational arithmetic);
* Python dictionaries are association lists (`Dict`) preserving insertion
  order; `d[k] += v` on a missing key is a `KeyError`, modelled by `Option`;
* each sub-process is a node of a `Proc` tree carrying its `time_type` tag
  and its `_compute` function, which receives the current (shared, aliased)
  state and diagnostics and returns its tendency dictionary together with
  the updated diagnostics.
-/

namespace Climlab

/-- Python dict from variable name to (one element of) a numpy array. -/
abbrev Dict := List (String × ℚ)

/-- Dictionary lookup, `d[k]` (first occurrence). -/
def lookup : Dict → String → Option ℚ
  | [], _ => none
  | (k', v) :: rest, k => if k' = k then some v else lookup rest k

/-- The list of keys of a dictionary, in insertion order. -/
def keys (d : Dict) : List String := d.map Prod.fst

/-- Lookup with default `0`, used only in specification statements. -/
def getD (d : Dict) (k : String) : ℚ := (lookup d k).getD 0

/-- `0. * value` for every entry: a zeroed copy with the same keys,
as in `tendencies[varname] = 0. * self.state[varname]`. -/
def zeroLike (d : Dict) : Dict := d.map (fun kv => (kv.1, 0))

/-- Apply a function to every value of the dictionary. -/
def mapValues (f : ℚ → ℚ) (d : Dict) : Dict := d.map (fun kv => (kv.1, f kv.2))

/-- `d[k] = v`: overwrite the first occurrence of `k`, or append the new
key at the end (Python dict insertion-order semantics). -/
def setVal : Dict → String → ℚ → Dict
  | [], k, v => [(k, v)]
  | (k', v') :: rest, k, v =>
    if k' = k then (k, v) :: rest else (k', v') :: setVal rest k v

/-- `d.update(e)`: Python dict update, overwriting common keys and
appending new ones. -/
def updateDict (d e : Dict) : Dict :=
  e.foldl (fun acc kv => setVal acc kv.1 kv.2) d

/-- `d[k] += v`: `KeyError` (hence `none`) when `k` is not a key of `d`,
as in the accumulation loops of `_compute_type` and `compute`. -/
def addInto : Dict → String → ℚ → Option Dict
  | [], _, _ => none
  | (k', v') :: rest, k, v =>
    if k' = k then some ((k', v' + v) :: rest)
    else (addInto rest k v).map (fun r => (k', v') :: r)

/-- `for varname, tend in proctend.iteritems(): tendencies[varname] += tend`:
accumulate one returned tendency dictionary into the running one,
failing on a key absent from the running dictionary. -/
def accumTend : Dict → Dict → Option Dict
  | tend, [] => some tend
  | tend, (k, v) :: rest =>
    match addInto tend k v with
    | none => none
    | some tend' => accumTend tend' rest

/-- The four process time types of the framework. -/
inductive TimeType : Type where
  | diagnostic : TimeType
  | explicit : TimeType
  | implicit : TimeType
  | adjustment : TimeType
deriving DecidableEq, Repr

/-- A node of the process tree: its `time_type` tag, its `_compute`
function (current state and diagnostics in, tendency dictionary and
updated diagnostics out — state and diagnostics are shared by reference
across the tree, so every process sees the caller's current values), and
its named sub-processes. -/
inductive Proc : Type where
  | node : TimeType → (Dict → Dict → Dict × Dict) → List Proc → Proc

/-- The `time_type` tag of a process. -/
def Proc.timeType : Proc → TimeType
  | .node t _ _ => t

/-- The `_compute` function of a process. -/
def Proc.comp : Proc → Dict → Dict → Dict × Dict
  | .node _ c _ => c

mutual
/-- Modelled from the spec: `climlab.utils.walk.walk_processes` is not in
the sources; per the spec it yields the process itself and all its
descendants, root before children when `topdown` and children before
root otherwise. -/
def walk_processes (topdown : Bool) : Proc → List Proc
  | .node t c subs =>
    if topdown then .node t c subs :: walk_list topdown subs
    else walk_list topdown subs ++ [.node t c subs]

/-- Walk every tree of a list of sub-processes in order. -/
def walk_list (topdown : Bool) : List Proc → List Proc
  | [] => []
  | p :: ps => walk_processes topdown p ++ walk_list topdown ps
end

/-- `_build_process_type_list`: partition the walked processes by
`time_type`, preserving the walk order (the source appends each walked
process to the list of its type). -/
def processTypes (root : Proc) (topdown : Bool) (t : TimeType) : List Proc :=
  (walk_processes topdown root).filter (fun p => p.timeType = t)

/-- Modelled from the spec: `climlab.constants.seconds_per_day`
(`climlab.constants` is not in the sources). -/
def seconds_per_day : ℚ := 24 * 60 * 60

/-- Modelled from the spec: `climlab.constants.days_per_year`. -/
def days_per_year : ℚ := 365

/-- Modelled from the spec: `climlab.constants.seconds_per_year`,
with the spec invariant `num_steps_per_year = seconds_per_year / timestep`. -/
def seconds_per_year : ℚ := seconds_per_day * days_per_year

/-- `np.arange(0., stop, step)` for positive rational step: the multiples
of `step` that are smaller than `stop`. -/
def arange (stop step : ℚ) : List ℚ :=
  (List.range (⌈stop / step⌉).toNat).map (fun i => (i : ℚ) * step)

/-- The per-process `self.time` dictionary (the `param['timestep']` entry
kept by the source alongside `time['timestep']` always holds the same
value and is merged into `timestep` here). -/
structure TimeRec : Type where
  timestep : ℚ
  num_steps_per_year : ℚ
  day_of_year_index : ℕ
  steps : ℕ
  days_elapsed : ℚ
  years_elapsed : ℕ
  days_of_year : List ℚ
deriving DecidableEq, Repr

/-- The body of the `timestep` property setter: rebuild `self.time` from
scratch for the given timestep value, resetting every counter. -/
def mkTime (value : ℚ) : TimeRec :=
  { timestep := value
    num_steps_per_year := seconds_per_year / value
    day_of_year_index := 0
    steps := 0
    days_elapsed := 0
    years_elapsed := 0
    days_of_year := arange days_per_year (value / seconds_per_day) }

/-- `_do_new_calendar_year`: back to Jan. 1 and one more elapsed year. -/
def do_new_calendar_year (t : TimeRec) : TimeRec :=
  { t with day_of_year_index := 0, years_elapsed := t.years_elapsed + 1 }

/-- `_update_time`: increment the step counter and the elapsed days, then
either roll the calendar year over (when
`day_of_year_index >= num_steps_per_year - 1`) or advance the
day-of-year index. -/
def update_time (t : TimeRec) : TimeRec :=
  let t1 := { t with
    steps := t.steps + 1
    days_elapsed := t.days_elapsed + t.timestep / seconds_per_day }
  if ((t1.day_of_year_index : ℚ)) ≥ t1.num_steps_per_year - 1 then
    do_new_calendar_year t1
  else
    { t1 with day_of_year_index := t1.day_of_year_index + 1 }

/-- Inner loop of `_compute_type`: run each process of the list on the
(fixed) current state, threading the diagnostics, and accumulate each
returned tendency dictionary into the running one. -/
def computeTypeAux : List Proc → Dict → Dict → Dict → Option (Dict × Dict)
  | [], _, tend, diags => some (tend, diags)
  | p :: ps, st, tend, diags =>
    match p.comp st diags with
    | (ptend, diags') =>
      match accumTend tend ptend with
      | none => none
      | some tend' => computeTypeAux ps st tend' diags'

/-- `_compute_type(proctype)`: zero-initialize a tendency dictionary with
the keys of `state`, then accumulate the `_compute()` result of every
process of the given type list. -/
def computeType (procs : List Proc) (st diags : Dict) : Option (Dict × Dict) :=
  computeTypeAux procs st (zeroLike st) diags

/-- `for name, var in self.state.iteritems(): var += tend[name] * timestep`
(`KeyError`, hence `none`, if a state key is missing from `tend`). -/
def applyTend : Dict → Dict → ℚ → Option Dict
  | [], _, _ => some []
  | (k, v) :: rest, tend, ts =>
    match lookup tend k with
    | none => none
    | some t => (applyTend rest tend ts).map (fun r => (k, v + t * ts) :: r)

/-- The rollback loop of `compute`:
`var -= (tendencies_implicit[name] + tendencies_explicit[name]) * timestep`. -/
def rollback : Dict → Dict → Dict → ℚ → Option Dict
  | [], _, _, _ => some []
  | (k, v) :: rest, tI, tE, ts =>
    match lookup tI k, lookup tE k with
    | some i, some e =>
      (rollback rest tI tE ts).map (fun r => (k, v - (i + e) * ts) :: r)
    | _, _ => none

/-- Everything `compute()` produces: its returned net `tendencies`, the
final `state` and `diagnostics`, and the local values of the routine
(per-type tendency dictionaries, raw adjustments, and the provisionally
adjusted state that the adjustment stage observed), exposed so the
specification can speak about them. -/
structure ComputeResult : Type where
  tendencies : Dict
  state : Dict
  diags : Dict
  tend_explicit : Dict
  tend_implicit : Dict
  tend_adjustment : Dict
  adjustments : Dict
  state_before_rollback : Dict

/-- `compute()` (the tendency compositor), in the exact order of the
source: diagnostic processes first (results ignored), then explicit
processes; provisionally apply the explicit tendencies to state; implicit
processes on the adjusted state, provisionally applied as well;
adjustment processes on the doubly adjusted state, their total changes
divided by `timestep`; roll the explicit and implicit changes back out of
the state; finally zero-initialize `self.tendencies` over the state keys
and accumulate the explicit, implicit and adjustment contributions. -/
def computeAll (root : Proc) (topdown : Bool) (ts : ℚ) (st diags : Dict) :
    Option ComputeResult :=
  match computeType (processTypes root topdown .diagnostic) st diags with
  | none => none
  | some (_ignored, d1) =>
    match computeType (processTypes root topdown .explicit) st d1 with
    | none => none
    | some (tE, d2) =>
      match applyTend st tE ts with
      | none => none
      | some s1 =>
        match computeType (processTypes root topdown .implicit) s1 d2 with
        | none => none
        | some (tI, d3) =>
          match applyTend s1 tI ts with
          | none => none
          | some s2 =>
            match computeType (processTypes root topdown .adjustment) s2 d3 with
            | none => none
            | some (adj, d4) =>
              match rollback s2 tI tE ts with
              | none => none
              | some s3 =>
                match accumTend (zeroLike st) tE with
                | none => none
                | some t1 =>
                  match accumTend t1 tI with
                  | none => none
                  | some t2 =>
                    match accumTend t2 (mapValues (fun v => v / ts) adj) with
                    | none => none
                    | some t3 =>
                      some ⟨t3, s3, d4, tE, tI, mapValues (fun v => v / ts) adj, adj, s2⟩

/-- The mutable attributes of a `TimeDependentProcess` used by the
time-stepping machinery.  The per-descendant time records, which
`step_forward` advances by the same `update_time` operation once per
process, are represented by the root's record (`walk_processes` and the
sub-process records are not in the sources; the spec states each record
is advanced identically, exactly once per step). -/
structure Model : Type where
  root : Proc
  topdown : Bool
  state : Dict
  diagnostics : Dict
  tendencies : Dict
  time : TimeRec
  timeave : Dict

/-- `compute()` at the object level: run the compositor on the current
state and diagnostics and store its results on the object.  The state is
reassigned the (restored) value left by the compositor. -/
def Model.compute (m : Model) : Option Model :=
  match computeAll m.root m.topdown m.time.timestep m.state m.diagnostics with
  | none => none
  | some r =>
    some { m with state := r.state, diagnostics := r.diags, tendencies := r.tendencies }

/-- `compute_diagnostics(num_iter)`: call `compute()` `num_iter` times
without touching the model state or time. -/
def Model.compute_diagnostics (m : Model) (num_iter : ℕ) : Option Model :=
  (List.range num_iter).foldl (fun acc _ => acc.bind Model.compute) (some m)

/-- The `timestep` property setter: rebuild `self.time` (and
`param['timestep']`) for the new value. -/
def Model.timestep_set (m : Model) (value : ℚ) : Model :=
  { m with time := mkTime value }

/-- `set_timestep(timestep, num_steps_per_year)`: when a number of steps
per year is given the timestep argument is ignored and recomputed from
it; either way delegate to the `timestep` setter. -/
def Model.set_timestep (m : Model) (timestep : ℚ) (num_steps_per_year : Option ℚ) :
    Model :=
  match num_steps_per_year with
  | some n => m.timestep_set (seconds_per_year / n)
  | none => m.timestep_set timestep

/-- `step_forward()`: one `compute()`, apply the net tendencies to the
state (`var += self.tendencies[name] * self.param['timestep']`), then
advance the time record (once per process in the tree; see `Model`). -/
def Model.step_forward (m : Model) : Option Model :=
  match m.compute with
  | none => none
  | some m1 =>
    match applyTend m1.state m1.tendencies m1.time.timestep with
    | none => none
    | some st => some { m1 with state := st, time := update_time m1.time }

/-- Python `int()` conversion of a rational: truncation toward zero. -/
def pyInt (q : ℚ) : ℤ := if 0 ≤ q then ⌊q⌋ else ⌈q⌉

/-- The time-average accumulation loop of `integrate_years`: for every
key of `timeave`, add the current state value, else the current
diagnostic value, else silently skip (the source's try/except/pass). -/
def accumTimeave (ta st diags : Dict) : Dict :=
  ta.map (fun kv =>
    match lookup st kv.1 with
    | some s => (kv.1, kv.2 + s)
    | none =>
      match lookup diags kv.1 with
      | some s => (kv.1, kv.2 + s)
      | none => kv)

/-- One iteration of the `integrate_years` time loop at iteration index
`count`: a `step_forward()`; on the very first iteration only, reset the
accumulator to a zeroed copy of state updated with diagnostics; then add
the current values into the accumulator (on every iteration, the first
included). -/
def iyStep (acc : Option Model) (count : ℕ) : Option Model :=
  match acc with
  | none => none
  | some m =>
    match m.step_forward with
    | none => none
    | some m1 =>
      let ta0 := if count = 0 then zeroLike (updateDict m1.state m1.diagnostics)
                 else m1.timeave
      some { m1 with timeave := accumTimeave ta0 m1.state m1.diagnostics }

/-- `integrate_years(years)`: `numsteps = int(num_steps_per_year * years)`
iterations of the time loop, then divide every accumulated value by
`numsteps` (in this rational model a division by a zero `numsteps`
yields `0`; the source would produce numpy inf/nan warnings there, a
case no claim covers). -/
def Model.integrate_years (m : Model) (years : ℚ) : Option Model :=
  let numsteps := (pyInt (m.time.num_steps_per_year * years)).toNat
  match (List.range numsteps).foldl iyStep (some m) with
  | none => none
  | some m' =>
    some { m' with timeave := mapValues (fun v => v / (numsteps : ℚ)) m'.timeave }

/-- `integrate_days(days)`: unit conversion and delegation. -/
def Model.integrate_days (m : Model) (days : ℚ) : Option Model :=
  m.integrate_years (days / days_per_year)

/-- The `while` loop of `integrate_converge` for one watched variable,
with explicit fuel (the source loop is unbounded; `none` when the fuel
runs out).  The second component counts the `integrate_years(1)` calls
performed, the instrumentation the claims are stated against. -/
def convergeLoop : ℕ → Model → String → ℚ → ℚ → ℕ → Option (Model × ℕ)
  | 0, _, _, _, _, _ => none
  | fuel + 1, m, v, vOld, crit, calls =>
    match lookup m.state v with
    | none => none
    | some cur =>
      if |vOld - cur| > crit then
        match m.integrate_years 1 with
        | none => none
        | some m1 => convergeLoop fuel m1 v cur crit (calls + 1)
      else some (m, calls)

/-- One iteration of the outer loop of `integrate_converge`: snapshot the
watched variable, one `integrate_years(1)`, then the `while` loop. -/
def convergeVar (fuel : ℕ) (m : Model) (v : String) (crit : ℚ) :
    Option (Model × ℕ) :=
  match lookup m.state v with
  | none => none
  | some vOld =>
    match m.integrate_years 1 with
    | none => none
    | some m1 => convergeLoop fuel m1 v vOld crit 1

/-- One iteration of the outer `for varname, value in self.state.iteritems()`
loop of `integrate_converge`, threading the model and the call counter. -/
def convergeStep (fuel : ℕ) (crit : ℚ) (acc : Option (Model × ℕ)) (v : String) :
    Option (Model × ℕ) :=
  match acc with
  | none => none
  | some (mm, c) =>
    match convergeVar fuel mm v crit with
    | none => none
    | some (mm', c') => some (mm', c + c')

/-- `integrate_converge(crit)`: for every state variable in turn, run
full-year integrations until its year-over-year change is at most
`crit`.  Returns the final model and the total number of
`integrate_years(1)` calls. -/
def Model.integrate_converge (fuel : ℕ) (m : Model) (crit : ℚ) :
    Option (Model × ℕ) :=
  (keys m.state).foldl (convergeStep fuel crit) (some (m, 0))

/-! ### Dictionary lemmas -/

theorem keys_cons (kv : String × ℚ) (d : Dict) : keys (kv :: d) = kv.1 :: keys d := rfl

theorem lookup_eq_none_iff (d : Dict) (k : String) :
    lookup d k = none ↔ k ∉ keys d := by
  induction d with
  | nil => simp [lookup, keys]
  | cons kv rest ih =>
    obtain ⟨k', v⟩ := kv
    by_cases h : k' = k
    · subst h
      simp [lookup, keys_cons]
    · simp [lookup, keys_cons, h, ih, Ne.symm h]

theorem lookup_isSome_of_mem {d : Dict} {k : String} (h : k ∈ keys d) :
    ∃ v, lookup d k = some v := by
  cases hl : lookup d k with
  | none => exact absurd ((lookup_eq_none_iff d k).mp hl) (by simp [h])
  | some v => exact ⟨v, rfl⟩

theorem mem_of_lookup_eq_some {d : Dict} {k : String} {v : ℚ}
    (h : lookup d k = some v) : k ∈ keys d := by
  by_contra hk
  rw [(lookup_eq_none_iff d k).mpr hk] at h
  exact Option.noConfusion h

theorem keys_zeroLike (d : Dict) : keys (zeroLike d) = keys d := by
  induction d with
  | nil => rfl
  | cons kv rest ih =>
    simp only [zeroLike, List.map_cons] at ih ⊢
    simp [keys_cons, ih]

theorem lookup_zeroLike (d : Dict) (k : String) :
    lookup (zeroLike d) k = (lookup d k).map (fun _ => 0) := by
  induction d with
  | nil => rfl
  | cons kv rest ih =>
    obtain ⟨k', v⟩ := kv
    simp only [zeroLike, List.map_cons] at ih ⊢
    by_cases h : k' = k <;> simp [lookup, h, ih]

theorem lookup_zeroLike_of_mem {d : Dict} {k : String} (h : k ∈ keys d) :
    lookup (zeroLike d) k = some 0 := by
  obtain ⟨v, hv⟩ := lookup_isSome_of_mem h
  simp [lookup_zeroLike, hv]

theorem keys_mapValues (f : ℚ → ℚ) (d : Dict) : keys (mapValues f d) = keys d := by
  induction d with
  | nil => rfl
  | cons kv rest ih =>
    simp only [mapValues, List.map_cons] at ih ⊢
    simp [keys_cons, ih]

theorem lookup_mapValues (f : ℚ → ℚ) (d : Dict) (k : String) :
    lookup (mapValues f d) k = (lookup d k).map f := by
  induction d with
  | nil => rfl
  | cons kv rest ih =>
    obtain ⟨k', v⟩ := kv
    simp only [mapValues, List.map_cons] at ih ⊢
    by_cases h : k' = k <;> simp [lookup, h, ih]

theorem addInto_eq_none_iff (d : Dict) (k : String) (v : ℚ) :
    addInto d k v = none ↔ k ∉ keys d := by
  induction d with
  | nil => simp [addInto, keys]
  | cons kv rest ih =>
    obtain ⟨k', v'⟩ := kv
    by_cases h : k' = k
    · subst h
      simp [addInto, keys_cons]
    · simp [addInto, keys_cons, h, Ne.symm h, Option.map_eq_none', ih]

theorem addInto_isSome_of_mem {d : Dict} {k : String} (v : ℚ) (h : k ∈ keys d) :
    ∃ d', addInto d k v = some d' := by
  cases hd : addInto d k v with
  | none => exact absurd ((addInto_eq_none_iff d k v).mp hd) (by simp [h])
  | some d' => exact ⟨d', rfl⟩

theorem keys_addInto {d d' : Dict} {k : String} {v : ℚ}
    (h : addInto d k v = some d') : keys d' = keys d := by
  induction d generalizing d' with
  | nil => exact absurd h (by simp [addInto])
  | cons kv rest ih =>
    obtain ⟨k', v'⟩ := kv
    by_cases hk : k' = k
    · subst hk
      simp only [addInto, eq_self_iff_true, if_true, Option.some.injEq] at h
      subst h
      simp [keys_cons]
    · simp only [addInto, if_neg hk, Option.map_eq_some'] at h
      obtain ⟨r, hr, hd'⟩ := h
      subst hd'
      simp [keys_cons, ih hr]

theorem lookup_addInto_self {d d' : Dict} {k : String} {v : ℚ}
    (h : addInto d k v = some d') :
    lookup d' k = (lookup d k).map (fun x => x + v) := by
  induction d generalizing d' with
  | nil => exact absurd h (by simp [addInto])
  | cons kv rest ih =>
    obtain ⟨k', v'⟩ := kv
    by_cases hk : k' = k
    · subst hk
      simp only [addInto, eq_self_iff_true, if_true, Option.some.injEq] at h
      subst h
      simp [lookup]
    · simp only [addInto, if_neg hk, Option.map_eq_some'] at h
      obtain ⟨r, hr, hd'⟩ := h
      subst hd'
      simp [lookup, hk, ih hr]

theorem lookup_addInto_other {d d' : Dict} {k k' : String} {v : ℚ}
    (h : addInto d k v = some d') (hk : k' ≠ k) :
    lookup d' k' = lookup d k' := by
  induction d generalizing d' with
  | nil => exact absurd h (by simp [addInto])
  | cons kv rest ih =>
    obtain ⟨k0, v0⟩ := kv
    by_cases h0 : k0 = k
    · subst h0
      simp only [addInto, eq_self_iff_true, if_true, Option.some.injEq] at h
      subst h
      have h2 : k0 ≠ k' := fun hh => hk hh.symm
      simp [lookup, h2]
    · simp only [addInto, if_neg h0, Option.map_eq_some'] at h
      obtain ⟨r, hr, hd'⟩ := h
      subst hd'
      by_cases h1 : k0 = k' <;> simp [lookup, h1, ih hr]

theorem addInto_zero {d : Dict} {k : String} (h : k ∈ keys d) :
    addInto d k 0 = some d := by
  induction d with
  | nil => simp [keys] at h
  | cons kv rest ih =>
    obtain ⟨k', v'⟩ := kv
    by_cases hk : k' = k
    · subst hk
      simp [addInto]
    · simp only [keys_cons, List.mem_cons] at h
      rcases h with h | h
      · exact absurd h.symm hk
      · simp [addInto, hk, ih h]

/-! ### accumTend lemmas -/

theorem accumTend_keys {t pt t' : Dict} (h : accumTend t pt = some t') :
    keys t' = keys t := by
  induction pt generalizing t with
  | nil => simp only [accumTend, Option.some.injEq] at h; subst h; rfl
  | cons kv rest ih =>
    obtain ⟨k, v⟩ := kv
    simp only [accumTend] at h
    cases ha : addInto t k v with
    | none => rw [ha] at h; exact Option.noConfusion h
    | some t1 =>
      rw [ha] at h
      exact (ih h).trans (keys_addInto ha)

theorem accumTend_eq_none_of_bad {t pt : Dict}
    (h : ∃ kv ∈ pt, kv.1 ∉ keys t) : accumTend t pt = none := by
  induction pt generalizing t with
  | nil => simp at h
  | cons kv rest ih =>
    obtain ⟨k, v⟩ := kv
    obtain ⟨bad, hmem, hbad⟩ := h
    simp only [List.mem_cons] at hmem
    simp only [accumTend]
    rcases hmem with hmem | hmem
    · subst hmem
      rw [(addInto_eq_none_iff t k v).mpr hbad]
    · cases ha : addInto t k v with
      | none => rfl
      | some t1 =>
        have : bad.1 ∉ keys t1 := by rw [keys_addInto ha]; exact hbad
        exact ih ⟨bad, hmem, this⟩

theorem accumTend_isSome_of_sub {t pt : Dict}
    (h : ∀ kv ∈ pt, kv.1 ∈ keys t) : ∃ t', accumTend t pt = some t' := by
  induction pt generalizing t with
  | nil => exact ⟨t, rfl⟩
  | cons kv rest ih =>
    obtain ⟨k, v⟩ := kv
    obtain ⟨t1, ht1⟩ := addInto_isSome_of_mem v (h (k, v) (by simp))
    simp only [accumTend, ht1]
    exact ih (fun kv' hkv' => by
      rw [keys_addInto ht1]; exact h kv' (List.mem_cons_of_mem _ hkv'))

theorem accumTend_lookup_not_mem {t pt t' : Dict} {k : String}
    (hk : ∀ kv ∈ pt, kv.1 ≠ k) (h : accumTend t pt = some t') :
    lookup t' k = lookup t k := by
  induction pt generalizing t with
  | nil => simp only [accumTend, Option.some.injEq] at h; subst h; rfl
  | cons kv rest ih =>
    obtain ⟨k0, v0⟩ := kv
    simp only [accumTend] at h
    cases ha : addInto t k0 v0 with
    | none => rw [ha] at h; exact Option.noConfusion h
    | some t1 =>
      rw [ha] at h
      have h0 : k ≠ k0 := fun hh => hk (k0, v0) (by simp) hh.symm
      rw [ih (fun kv' hkv' => hk kv' (List.mem_cons_of_mem _ hkv')) h]
      exact lookup_addInto_other ha h0

theorem accumTend_lookup {t pt t' : Dict}
    (hn : (keys pt).Nodup) (h : accumTend t pt = some t') (k : String) :
    lookup t' k = (match lookup pt k with
      | some v => (lookup t k).map (fun x => x + v)
      | none => lookup t k) := by
  induction pt generalizing t with
  | nil => simp only [accumTend, Option.some.injEq] at h; subst h; simp [lookup]
  | cons kv rest ih =>
    obtain ⟨k0, v0⟩ := kv
    simp only [accumTend] at h
    cases ha : addInto t k0 v0 with
    | none => rw [ha] at h; exact Option.noConfusion h
    | some t1 =>
      rw [ha] at h
      rw [keys_cons] at hn
      have hn' := hn.of_cons
      have hk0 : k0 ∉ keys rest := (List.nodup_cons.mp hn).1
      by_cases hkk : k0 = k
      · subst hkk
        have hrest : ∀ kv' ∈ rest, kv'.1 ≠ k0 := by
          intro kv' hkv' he
          exact hk0 (he ▸ List.mem_map_of_mem Prod.fst hkv')
        rw [accumTend_lookup_not_mem hrest h]
        simp [lookup, lookup_addInto_self ha]
      · rw [ih hn' h]
        have hl : lookup t1 k = lookup t k := lookup_addInto_other ha (fun hh => hkk hh.symm)
        simp [lookup, hkk, hl]

/-! ### applyTend and rollback lemmas -/

theorem applyTend_keys {st tend s' : Dict} {ts : ℚ}
    (h : applyTend st tend ts = some s') : keys s' = keys st := by
  induction st generalizing s' with
  | nil => simp only [applyTend, Option.some.injEq] at h; subst h; rfl
  | cons kv rest ih =>
    obtain ⟨k, v⟩ := kv
    simp only [applyTend] at h
    cases hl : lookup tend k with
    | none => rw [hl] at h; exact Option.noConfusion h
    | some t =>
      rw [hl, Option.map_eq_some'] at h
      obtain ⟨r, hr, hs'⟩ := h
      subst hs'
      simp [keys_cons, ih hr]

theorem applyTend_isSome {st tend : Dict} {ts : ℚ}
    (h : ∀ k ∈ keys st, k ∈ keys tend) : ∃ s', applyTend st tend ts = some s' := by
  induction st with
  | nil => exact ⟨[], rfl⟩
  | cons kv rest ih =>
    obtain ⟨k, v⟩ := kv
    obtain ⟨t, ht⟩ := lookup_isSome_of_mem (h k (by simp [keys_cons]))
    obtain ⟨r, hr⟩ := ih (fun k' hk' => h k' (by simp [keys_cons, hk']))
    exact ⟨(k, v + t * ts) :: r, by simp [applyTend, ht, hr]⟩

theorem applyTend_lookup {st tend s' : Dict} {ts : ℚ}
    (h : applyTend st tend ts = some s') {k : String} {v : ℚ}
    (hv : lookup st k = some v) :
    ∃ t, lookup tend k = some t ∧ lookup s' k = some (v + t * ts) := by
  induction st generalizing s' with
  | nil => exact Option.noConfusion hv
  | cons kv rest ih =>
    obtain ⟨k0, v0⟩ := kv
    simp only [applyTend] at h
    cases hl : lookup tend k0 with
    | none => rw [hl] at h; exact Option.noConfusion h
    | some t0 =>
      rw [hl, Option.map_eq_some'] at h
      obtain ⟨r, hr, hs'⟩ := h
      subst hs'
      by_cases hkk : k0 = k
      · subst hkk
        simp only [lookup, eq_self_iff_true, if_true, Option.some.injEq] at hv
        subst hv
        exact ⟨t0, hl, by simp [lookup]⟩
      · simp only [lookup, if_neg hkk] at hv
        obtain ⟨t, ht, hlk⟩ := ih hr hv
        exact ⟨t, ht, by simp [lookup, hkk, hlk]⟩

theorem applyTend_of_zero {st tend : Dict} {ts : ℚ}
    (h : ∀ k ∈ keys st, lookup tend k = some 0) :
    applyTend st tend ts = some st := by
  induction st with
  | nil => rfl
  | cons kv rest ih =>
    obtain ⟨k, v⟩ := kv
    have hk := h k (by simp [keys_cons])
    have hr := ih (fun k' hk' => h k' (by simp [keys_cons, hk']))
    simp [applyTend, hk, hr]

theorem rollback_of_zero {st tI tE : Dict} {ts : ℚ}
    (h : ∀ k ∈ keys st, lookup tI k = some 0 ∧ lookup tE k = some 0) :
    rollback st tI tE ts = some st := by
  induction st with
  | nil => rfl
  | cons kv rest ih =>
    obtain ⟨k, v⟩ := kv
    obtain ⟨hi, he⟩ := h k (by simp [keys_cons])
    have hr := ih (fun k' hk' => h k' (by simp [keys_cons, hk']))
    simp [rollback, hi, he, hr]

theorem roundtrip {st tE tI s1 s2 : Dict} {ts : ℚ}
    (h1 : applyTend st tE ts = some s1) (h2 : applyTend s1 tI ts = some s2) :
    rollback s2 tI tE ts = some st := by
  induction st generalizing s1 s2 with
  | nil =>
    simp only [applyTend, Option.some.injEq] at h1
    subst h1
    simp only [applyTend, Option.some.injEq] at h2
    subst h2
    rfl
  | cons kv rest ih =>
    obtain ⟨k, v⟩ := kv
    simp only [applyTend] at h1
    cases he : lookup tE k with
    | none => rw [he] at h1; exact Option.noConfusion h1
    | some e =>
      rw [he, Option.map_eq_some'] at h1
      obtain ⟨r1, hr1, hs1⟩ := h1
      subst hs1
      simp only [applyTend] at h2
      cases hi : lookup tI k with
      | none => rw [hi] at h2; exact Option.noConfusion h2
      | some i =>
        rw [hi, Option.map_eq_some'] at h2
        obtain ⟨r2, hr2, hs2⟩ := h2
        subst hs2
        have : v + e * ts + i * ts - (i + e) * ts = v := by ring
        simp [rollback, hi, he, ih hr1 hr2, this]

/-! ### computeType lemmas -/

theorem computeTypeAux_keys {ps : List Proc} {st tend dg t d : Dict}
    (h : computeTypeAux ps st tend dg = some (t, d)) : keys t = keys tend := by
  induction ps generalizing tend dg with
  | nil =>
    simp only [computeTypeAux, Option.some.injEq, Prod.mk.injEq] at h
    rw [h.1]
  | cons q qs ih =>
    simp only [computeTypeAux] at h
    cases ha : accumTend tend (q.comp st dg).1 with
    | none => rw [ha] at h; exact Option.noConfusion h
    | some tend' =>
      rw [ha] at h
      exact (ih h).trans (accumTend_keys ha)

theorem computeType_keys {ps : List Proc} {st dg t d : Dict}
    (h : computeType ps st dg = some (t, d)) : keys t = keys st :=
  (computeTypeAux_keys h).trans (keys_zeroLike st)

theorem computeTypeAux_none {p : Proc} {ps : List Proc} {st : Dict}
    (hp : p ∈ ps)
    (hbad : ∀ d', ∃ kv ∈ (p.comp st d').1, kv.1 ∉ keys st) :
    ∀ tend dg, keys tend = keys st → computeTypeAux ps st tend dg = none := by
  induction ps with
  | nil => simp at hp
  | cons q qs ih =>
    intro tend dg hkeys
    simp only [computeTypeAux]
    rcases List.mem_cons.mp hp with hpq | hpq
    · subst hpq
      obtain ⟨kv, hmem, hout⟩ := hbad dg
      rw [accumTend_eq_none_of_bad ⟨kv, hmem, by rw [hkeys]; exact hout⟩]
    · cases ha : accumTend tend (q.comp st dg).1 with
      | none => rfl
      | some tend' =>
        exact ih hpq tend' (q.comp st dg).2 ((accumTend_keys ha).trans hkeys)

theorem computeTypeAux_lookup_untouched {ps : List Proc} {st tend dg t d : Dict}
    {k : String}
    (hk : ∀ q ∈ ps, ∀ s dq, ∀ kv ∈ (q.comp s dq).1, kv.1 ≠ k)
    (h : computeTypeAux ps st tend dg = some (t, d)) :
    lookup t k = lookup tend k := by
  induction ps generalizing tend dg with
  | nil =>
    simp only [computeTypeAux, Option.some.injEq, Prod.mk.injEq] at h
    rw [h.1]
  | cons q qs ih =>
    simp only [computeTypeAux] at h
    cases ha : accumTend tend (q.comp st dg).1 with
    | none => rw [ha] at h; exact Option.noConfusion h
    | some tend' =>
      rw [ha] at h
      have h1 := ih (fun q' hq' => hk q' (List.mem_cons_of_mem _ hq')) h
      rw [h1]
      exact accumTend_lookup_not_mem (hk q (by simp) st dg) ha

theorem computeType_lookup_untouched {ps : List Proc} {st dg t d : Dict} {k : String}
    (hmem : k ∈ keys st)
    (hk : ∀ q ∈ ps, ∀ s dq, ∀ kv ∈ (q.comp s dq).1, kv.1 ≠ k)
    (h : computeType ps st dg = some (t, d)) :
    lookup t k = some 0 := by
  rw [computeTypeAux_lookup_untouched hk h]
  exact lookup_zeroLike_of_mem hmem

/-! ### Zero-tendency processes -/

theorem accumTend_zeroLike_of_sub {t src : Dict}
    (hsub : ∀ k ∈ keys src, k ∈ keys t) :
    accumTend t (zeroLike src) = some t := by
  induction src generalizing t with
  | nil => rfl
  | cons kv rest ih =>
    obtain ⟨k, v⟩ := kv
    simp only [zeroLike, List.map_cons, accumTend]
    rw [addInto_zero (hsub k (by simp [keys_cons]))]
    exact ih (fun k' hk' => hsub k' (by simp [keys_cons, hk']))

theorem computeTypeAux_zero {ps : List Proc} {st tend dg : Dict}
    (hz : ∀ q ∈ ps, ∀ s d, q.comp s d = (zeroLike s, d))
    (hsub : ∀ k ∈ keys st, k ∈ keys tend) :
    computeTypeAux ps st tend dg = some (tend, dg) := by
  induction ps generalizing dg with
  | nil => rfl
  | cons q qs ih =>
    simp only [computeTypeAux, hz q (by simp) st dg]
    rw [accumTend_zeroLike_of_sub hsub]
    exact ih (fun q' hq' => hz q' (List.mem_cons_of_mem _ hq'))

theorem computeType_zero {ps : List Proc} {st dg : Dict}
    (hz : ∀ q ∈ ps, ∀ s d, q.comp s d = (zeroLike s, d)) :
    computeType ps st dg = some (zeroLike st, dg) :=
  computeTypeAux_zero hz (fun k hk => by rwa [keys_zeroLike])

/-! ### computeAll inversion and core properties -/

theorem computeAll_inv {root : Proc} {topdown : Bool} {ts : ℚ} {st dg : Dict}
    {r : ComputeResult} (h : computeAll root topdown ts st dg = some r) :
    ∃ ig d1 tE d2 s1 tI d3 s2 adj d4 s3 t1 t2 t3,
      computeType (processTypes root topdown .diagnostic) st dg = some (ig, d1) ∧
      computeType (processTypes root topdown .explicit) st d1 = some (tE, d2) ∧
      applyTend st tE ts = some s1 ∧
      computeType (processTypes root topdown .implicit) s1 d2 = some (tI, d3) ∧
      applyTend s1 tI ts = some s2 ∧
      computeType (processTypes root topdown .adjustment) s2 d3 = some (adj, d4) ∧
      rollback s2 tI tE ts = some s3 ∧
      accumTend (zeroLike st) tE = some t1 ∧
      accumTend t1 tI = some t2 ∧
      accumTend t2 (mapValues (fun v => v / ts) adj) = some t3 ∧
      r = ⟨t3, s3, d4, tE, tI, mapValues (fun v => v / ts) adj, adj, s2⟩ := by
  rw [computeAll] at h
  cases h0 : computeType (processTypes root topdown .diagnostic) st dg with
  | none => rw [h0] at h; exact Option.noConfusion h
  | some x0 =>
  obtain ⟨ig, d1⟩ := x0
  rw [h0] at h
  dsimp only [] at h
  cases h1 : computeType (processTypes root topdown .explicit) st d1 with
  | none => rw [h1] at h; exact Option.noConfusion h
  | some x1 =>
  obtain ⟨tE, d2⟩ := x1
  rw [h1] at h
  dsimp only [] at h
  cases h2 : applyTend st tE ts with
  | none => rw [h2] at h; exact Option.noConfusion h
  | some s1 =>
  rw [h2] at h
  dsimp only [] at h
  cases h3 : computeType (processTypes root topdown .implicit) s1 d2 with
  | none => rw [h3] at h; exact Option.noConfusion h
  | some x3 =>
  obtain ⟨tI, d3⟩ := x3
  rw [h3] at h
  dsimp only [] at h
  cases h4 : applyTend s1 tI ts with
  | none => rw [h4] at h; exact Option.noConfusion h
  | some s2 =>
  rw [h4] at h
  dsimp only [] at h
  cases h5 : computeType (processTypes root topdown .adjustment) s2 d3 with
  | none => rw [h5] at h; exact Option.noConfusion h
  | some x5 =>
  obtain ⟨adj, d4⟩ := x5
  rw [h5] at h
  dsimp only [] at h
  cases h6 : rollback s2 tI tE ts with
  | none => rw [h6] at h; exact Option.noConfusion h
  | some s3 =>
  rw [h6] at h
  dsimp only [] at h
  cases h7 : accumTend (zeroLike st) tE with
  | none => rw [h7] at h; exact Option.noConfusion h
  | some t1 =>
  rw [h7] at h
  dsimp only [] at h
  cases h8 : accumTend t1 tI with
  | none => rw [h8] at h; exact Option.noConfusion h
  | some t2 =>
  rw [h8] at h
  dsimp only [] at h
  cases h9 : accumTend t2 (mapValues (fun v => v / ts) adj) with
  | none => rw [h9] at h; exact Option.noConfusion h
  | some t3 =>
  rw [h9] at h
  dsimp only [] at h
  simp only [Option.some.injEq] at h
  refine ⟨ig, d1, tE, d2, s1, tI, d3, s2, adj, d4, s3, t1, t2, t3,
    ?_, ?_, ?_, ?_, ?_, ?_, ?_, ?_, ?_, ?_, h.symm⟩ <;>
    first
      | rfl
      | exact h0 | exact h1 | exact h2 | exact h3 | exact h4
      | exact h5 | exact h6 | exact h7 | exact h8 | exact h9

theorem computeAll_state {root : Proc} {topdown : Bool} {ts : ℚ} {st dg : Dict}
    {r : ComputeResult} (h : computeAll root topdown ts st dg = some r) :
    r.state = st := by
  obtain ⟨ig, d1, tE, d2, s1, tI, d3, s2, adj, d4, s3, t1, t2, t3,
    _, _, h2, _, h4, _, h6, _, _, _, hr⟩ := computeAll_inv h
  have := roundtrip h2 h4
  rw [h6] at this
  rw [hr]
  exact (Option.some.injEq _ _).mp this

/-! ### Model-level lemmas -/

theorem Model.compute_inv {m m' : Model} (h : m.compute = some m') :
    ∃ r, computeAll m.root m.topdown m.time.timestep m.state m.diagnostics = some r ∧
      m' = { m with state := r.state, diagnostics := r.diags,
                    tendencies := r.tendencies } := by
  unfold Model.compute at h
  cases hr : computeAll m.root m.topdown m.time.timestep m.state m.diagnostics with
  | none => rw [hr] at h; exact Option.noConfusion h
  | some r =>
    rw [hr] at h
    dsimp only [] at h
    exact ⟨r, rfl, ((Option.some.injEq _ _).mp h).symm⟩

theorem Model.compute_state {m m' : Model} (h : m.compute = some m') :
    m'.state = m.state := by
  obtain ⟨r, hr, he⟩ := Model.compute_inv h
  rw [he]
  exact computeAll_state hr

theorem Model.compute_frame {m m' : Model} (h : m.compute = some m') :
    m'.root = m.root ∧ m'.topdown = m.topdown ∧ m'.time = m.time ∧
      m'.timeave = m.timeave := by
  obtain ⟨r, _, he⟩ := Model.compute_inv h
  rw [he]
  exact ⟨rfl, rfl, rfl, rfl⟩

theorem Model.compute_diagnostics_fold {n : ℕ} {m m' : Model}
    (h : (List.range n).foldl (fun acc _ => acc.bind Model.compute) (some m) = some m') :
    m'.state = m.state ∧ m'.time = m.time := by
  induction n generalizing m' with
  | zero =>
    simp only [List.range_zero, List.foldl_nil, Option.some.injEq] at h
    rw [← h]
    exact ⟨rfl, rfl⟩
  | succ n ih =>
    rw [List.range_succ, List.foldl_append, List.foldl_cons, List.foldl_nil] at h
    cases hf : (List.range n).foldl (fun acc _ => acc.bind Model.compute) (some m) with
    | none => rw [hf] at h; exact Option.noConfusion h
    | some m1 =>
      rw [hf] at h
      dsimp only [Option.bind] at h
      obtain ⟨h1, h2⟩ := ih hf
      exact ⟨(Model.compute_state h).trans h1, ((Model.compute_frame h).2.2.1).trans h2⟩

theorem Model.compute_diagnostics_state {m m' : Model} {n : ℕ}
    (h : m.compute_diagnostics n = some m') : m'.state = m.state ∧ m'.time = m.time :=
  Model.compute_diagnostics_fold h

theorem Model.step_forward_inv {m m' : Model} (h : m.step_forward = some m') :
    ∃ m1 st, m.compute = some m1 ∧
      applyTend m1.state m1.tendencies m1.time.timestep = some st ∧
      m' = { m1 with state := st, time := update_time m1.time } := by
  unfold Model.step_forward at h
  cases hc : m.compute with
  | none => rw [hc] at h; exact Option.noConfusion h
  | some m1 =>
    rw [hc] at h
    dsimp only [] at h
    cases ha : applyTend m1.state m1.tendencies m1.time.timestep with
    | none => rw [ha] at h; exact Option.noConfusion h
    | some st =>
      rw [ha] at h
      dsimp only [] at h
      refine ⟨m1, st, ?_, ?_, ((Option.some.injEq _ _).mp h).symm⟩ <;>
        first | rfl | exact hc | exact ha

theorem Model.step_forward_time {m m' : Model} (h : m.step_forward = some m') :
    m'.time = update_time m.time := by
  obtain ⟨m1, st, hc, _, he⟩ := Model.step_forward_inv h
  rw [he]
  show update_time m1.time = update_time m.time
  rw [(Model.compute_frame hc).2.2.1]

theorem Model.step_forward_frame {m m' : Model} (h : m.step_forward = some m') :
    m'.root = m.root ∧ m'.topdown = m.topdown ∧ m'.timeave = m.timeave := by
  obtain ⟨m1, st, hc, _, he⟩ := Model.step_forward_inv h
  obtain ⟨h1, h2, _, h4⟩ := Model.compute_frame hc
  rw [he]
  exact ⟨h1, h2, h4⟩

/-! ### Time characterization -/

theorem update_time_char (t : TimeRec) :
    (update_time t).steps = t.steps + 1 ∧
    (update_time t).days_elapsed = t.days_elapsed + t.timestep / seconds_per_day ∧
    (update_time t).timestep = t.timestep ∧
    (update_time t).num_steps_per_year = t.num_steps_per_year ∧
    (((t.day_of_year_index : ℚ) ≥ t.num_steps_per_year - 1) →
      (update_time t).day_of_year_index = 0 ∧
      (update_time t).years_elapsed = t.years_elapsed + 1) ∧
    ((¬ ((t.day_of_year_index : ℚ) ≥ t.num_steps_per_year - 1)) →
      (update_time t).day_of_year_index = t.day_of_year_index + 1 ∧
      (update_time t).years_elapsed = t.years_elapsed) := by
  unfold update_time do_new_calendar_year
  by_cases hc : ((t.day_of_year_index : ℚ) ≥ t.num_steps_per_year - 1)
  · simp [hc]
  · simp [hc]

theorem update_time_steps (t : TimeRec) : (update_time t).steps = t.steps + 1 :=
  (update_time_char t).1

theorem Model.step_forward_steps {m m' : Model} (h : m.step_forward = some m') :
    m'.time.steps = m.time.steps + 1 := by
  rw [Model.step_forward_time h]
  exact update_time_steps m.time

/-! ### Zero-tendency process trees -/

/-- Every process of the tree returns a zero tendency dictionary and
leaves the diagnostics unchanged. -/
def ZeroProcs (m : Model) : Prop :=
  ∀ p ∈ walk_processes m.topdown m.root, ∀ s d, p.comp s d = (zeroLike s, d)

theorem mem_walk_of_mem_processTypes {root : Proc} {topdown : Bool} {t : TimeType}
    {q : Proc} (h : q ∈ processTypes root topdown t) :
    q ∈ walk_processes topdown root :=
  List.mem_of_mem_filter h

theorem mapValues_zeroLike {f : ℚ → ℚ} (hf : f 0 = 0) (d : Dict) :
    mapValues f (zeroLike d) = zeroLike d := by
  induction d with
  | nil => rfl
  | cons kv rest ih =>
    simp only [mapValues, zeroLike, List.map_cons, List.map_map] at ih ⊢
    simp [hf, ih]

theorem computeAll_zero {root : Proc} {topdown : Bool} {ts : ℚ} {st dg : Dict}
    (hz : ∀ p ∈ walk_processes topdown root, ∀ s d, p.comp s d = (zeroLike s, d)) :
    computeAll root topdown ts st dg =
      some ⟨zeroLike st, st, dg, zeroLike st, zeroLike st, zeroLike st, zeroLike st, st⟩ := by
  have hz' : ∀ t : TimeType, ∀ q ∈ processTypes root topdown t,
      ∀ s d, q.comp s d = (zeroLike s, d) :=
    fun t q hq => hz q (mem_walk_of_mem_processTypes hq)
  have hza : ∀ k ∈ keys st, lookup (zeroLike st) k = some 0 :=
    fun k hk => lookup_zeroLike_of_mem hk
  have hzz : ∀ k ∈ keys st, lookup (zeroLike st) k = some 0 ∧
      lookup (zeroLike st) k = some 0 :=
    fun k hk => ⟨hza k hk, hza k hk⟩
  have hacc : accumTend (zeroLike st) (zeroLike st) = some (zeroLike st) :=
    accumTend_zeroLike_of_sub (fun k hk => by rwa [keys_zeroLike])
  rw [computeAll]
  rw [computeType_zero (hz' .diagnostic)]
  dsimp only []
  rw [computeType_zero (hz' .explicit)]
  dsimp only []
  rw [applyTend_of_zero hza]
  dsimp only []
  rw [computeType_zero (hz' .implicit)]
  dsimp only []
  rw [applyTend_of_zero hza]
  dsimp only []
  rw [computeType_zero (hz' .adjustment)]
  dsimp only []
  rw [rollback_of_zero hzz]
  dsimp only []
  rw [hacc]
  dsimp only []
  rw [hacc]
  dsimp only []
  rw [mapValues_zeroLike (by norm_num) st, hacc]

theorem Model.compute_zero {m : Model} (hz : ZeroProcs m) :
    m.compute = some { m with tendencies := zeroLike m.state } := by
  unfold Model.compute
  rw [computeAll_zero hz]

theorem Model.step_forward_zero {m : Model} (hz : ZeroProcs m) :
    m.step_forward = some { m with tendencies := zeroLike m.state,
                                   time := update_time m.time } := by
  unfold Model.step_forward
  rw [Model.compute_zero hz]
  dsimp only []
  rw [applyTend_of_zero (fun k hk => lookup_zeroLike_of_mem hk)]

/-! ### accumTimeave and updateDict lemmas -/

theorem accumTimeave_lookup_state {ta st dg : Dict} {k : String} {a v : ℚ}
    (hta : lookup ta k = some a) (hst : lookup st k = some v) :
    lookup (accumTimeave ta st dg) k = some (a + v) := by
  induction ta with
  | nil => exact Option.noConfusion hta
  | cons kv rest ih =>
    obtain ⟨k0, v0⟩ := kv
    simp only [accumTimeave, List.map_cons] at ih ⊢
    by_cases hk : k0 = k
    · subst hk
      simp only [lookup, eq_self_iff_true, if_true, Option.some.injEq] at hta
      subst hta
      simp [lookup, hst]
    · simp only [lookup, if_neg hk] at hta
      cases h0 : lookup st k0 with
      | some s0 => simp [lookup, h0, hk, ih hta]
      | none =>
        cases h1 : lookup dg k0 with
        | some s1 => simp [lookup, h0, h1, hk, ih hta]
        | none => simp [lookup, h0, h1, hk, ih hta]

theorem accumTimeave_lookup_skip {ta st dg : Dict} {k : String}
    (h1 : lookup st k = none) (h2 : lookup dg k = none) :
    lookup (accumTimeave ta st dg) k = lookup ta k := by
  induction ta with
  | nil => rfl
  | cons kv rest ih =>
    obtain ⟨k0, v0⟩ := kv
    simp only [accumTimeave, List.map_cons] at ih ⊢
    by_cases hk : k0 = k
    · subst hk
      simp [lookup, h1, h2]
    · cases h0 : lookup st k0 with
      | some s0 => simp [lookup, h0, hk, ih]
      | none =>
        cases h3 : lookup dg k0 with
        | some s1 => simp [lookup, h0, h3, hk, ih]
        | none => simp [lookup, h0, h3, hk, ih]

theorem mem_keys_setVal_of_mem {d : Dict} {k0 k : String} {v0 : ℚ}
    (h : k ∈ keys d) : k ∈ keys (setVal d k0 v0) := by
  induction d with
  | nil => simp [keys] at h
  | cons kv rest ih =>
    obtain ⟨k1, v1⟩ := kv
    simp only [keys_cons, List.mem_cons] at h
    by_cases hk : k1 = k0
    · subst hk
      rcases h with h | h
      · simp [setVal, keys_cons, h]
      · simp [setVal, keys_cons, h]
    · simp only [setVal, if_neg hk, keys_cons, List.mem_cons]
      rcases h with h | h
      · exact Or.inl h
      · exact Or.inr (ih h)

theorem mem_keys_updateDict_left {d e : Dict} {k : String}
    (h : k ∈ keys d) : k ∈ keys (updateDict d e) := by
  induction e generalizing d with
  | nil => exact h
  | cons kv rest ih =>
    simp only [updateDict, List.foldl_cons] at ih ⊢
    exact ih (mem_keys_setVal_of_mem h)

/-! ### The integrate_years fold -/

theorem foldl_iyStep_none (l : List ℕ) : l.foldl iyStep none = none := by
  induction l with
  | nil => rfl
  | cons c rest ih => simp only [List.foldl_cons, iyStep]; exact ih

theorem iyStep_inv {m m' : Model} {c : ℕ} (h : iyStep (some m) c = some m') :
    ∃ m1, m.step_forward = some m1 ∧
      m' = { m1 with timeave := (accumTimeave
        (if c = 0 then zeroLike (updateDict m1.state m1.diagnostics) else m1.timeave)
        m1.state m1.diagnostics) } := by
  unfold iyStep at h
  dsimp only [] at h
  cases hs : m.step_forward with
  | none => rw [hs] at h; exact Option.noConfusion h
  | some m1 =>
    rw [hs] at h
    dsimp only [] at h
    refine ⟨m1, ?_, ((Option.some.injEq _ _).mp h).symm⟩
    rfl

theorem foldl_iyStep_steps {l : List ℕ} {m m' : Model}
    (h : l.foldl iyStep (some m) = some m') :
    m'.time.steps = m.time.steps + l.length := by
  induction l generalizing m with
  | nil =>
    simp only [List.foldl_nil, Option.some.injEq] at h
    rw [← h, List.length_nil]
    omega
  | cons c rest ih =>
    rw [List.foldl_cons] at h
    cases hs : iyStep (some m) c with
    | none => rw [hs, foldl_iyStep_none] at h; exact Option.noConfusion h
    | some m1 =>
      rw [hs] at h
      obtain ⟨m2, hstep, he⟩ := iyStep_inv hs
      have h1 : m1.time.steps = m.time.steps + 1 := by
        rw [he]
        show m2.time.steps = m.time.steps + 1
        exact Model.step_forward_steps hstep
      rw [ih h, h1, List.length_cons]
      omega

theorem integrate_years_inv {m m' : Model} {y : ℚ}
    (h : m.integrate_years y = some m') :
    ∃ mf, (List.range (pyInt (m.time.num_steps_per_year * y)).toNat).foldl
        iyStep (some m) = some mf ∧
      m' = { mf with timeave := (mapValues
        (fun v => v / ((pyInt (m.time.num_steps_per_year * y)).toNat : ℚ)) mf.timeave) } := by
  unfold Model.integrate_years at h
  dsimp only [] at h
  cases hf : (List.range (pyInt (m.time.num_steps_per_year * y)).toNat).foldl
      iyStep (some m) with
  | none => rw [hf] at h; exact Option.noConfusion h
  | some mf =>
    rw [hf] at h
    dsimp only [] at h
    refine ⟨mf, ?_, ((Option.some.injEq _ _).mp h).symm⟩
    rfl

theorem integrate_years_steps {m m' : Model} {y : ℚ}
    (h : m.integrate_years y = some m') :
    m'.time.steps = m.time.steps + (pyInt (m.time.num_steps_per_year * y)).toNat := by
  obtain ⟨mf, hf, he⟩ := integrate_years_inv h
  have := foldl_iyStep_steps hf
  rw [List.length_range] at this
  rw [he]
  exact this

/-! ### pyInt -/

theorem pyInt_nonneg {q : ℚ} (h : 0 ≤ q) : pyInt q = ⌊q⌋ := by
  unfold pyInt
  rw [if_pos h]

/-! ### stepN: iterated step_forward -/

/-- `n` successive `step_forward()` calls. -/
def stepN (m : Model) : ℕ → Option Model
  | 0 => some m
  | n + 1 =>
    match stepN m n with
    | none => none
    | some m' => m'.step_forward

theorem stepN_time {m : Model} {n : ℕ} {m' : Model} (h : stepN m n = some m') :
    m'.time = update_time^[n] m.time := by
  induction n generalizing m' with
  | zero =>
    simp only [stepN, Option.some.injEq] at h
    rw [← h, Function.iterate_zero_apply]
  | succ n ih =>
    simp only [stepN] at h
    cases hs : stepN m n with
    | none => rw [hs] at h; exact Option.noConfusion h
    | some m1 =>
      rw [hs] at h
      dsimp only [] at h
      rw [Function.iterate_succ_apply', ← ih hs]
      exact Model.step_forward_time h

/-! ### Zero-tendency fold invariants -/

theorem iyStep_zero_tail {m m' : Model} {c : ℕ} (hc : c ≠ 0) (hz : ZeroProcs m)
    (h : iyStep (some m) c = some m') :
    m' = { m with tendencies := zeroLike m.state, time := update_time m.time,
                  timeave := accumTimeave m.timeave m.state m.diagnostics } := by
  unfold iyStep at h
  dsimp only [] at h
  rw [Model.step_forward_zero hz] at h
  dsimp only [] at h
  rw [if_neg hc] at h
  exact ((Option.some.injEq _ _).mp h).symm

theorem iyStep_zero_head {m m' : Model} (hz : ZeroProcs m)
    (h : iyStep (some m) 0 = some m') :
    m' = { m with tendencies := zeroLike m.state, time := update_time m.time,
                  timeave := accumTimeave (zeroLike (updateDict m.state m.diagnostics))
                    m.state m.diagnostics } := by
  unfold iyStep at h
  dsimp only [] at h
  rw [Model.step_forward_zero hz] at h
  dsimp only [] at h
  rw [if_pos rfl] at h
  exact ((Option.some.injEq _ _).mp h).symm

theorem ZeroProcs_update {m : Model} (hz : ZeroProcs m) (st dg tend ta : Dict)
    (t : TimeRec) :
    ZeroProcs { m with state := st, diagnostics := dg, tendencies := tend,
                       time := t, timeave := ta } := hz

theorem foldl_iyStep_zero {l : List ℕ} (hl : ∀ c ∈ l, c ≠ 0) {m m' : Model}
    (hz : ZeroProcs m) (h : l.foldl iyStep (some m) = some m')
    {k : String} {a v : ℚ}
    (hk : lookup m.state k = some v) (hta : lookup m.timeave k = some a) :
    m'.state = m.state ∧ m'.diagnostics = m.diagnostics ∧
      lookup m'.timeave k = some (a + l.length * v) := by
  induction l generalizing m a with
  | nil =>
    simp only [List.foldl_nil, Option.some.injEq] at h
    rw [← h, List.length_nil]
    push_cast
    rw [zero_mul, add_zero]
    exact ⟨rfl, rfl, hta⟩
  | cons c rest ih =>
    rw [List.foldl_cons] at h
    cases hs : iyStep (some m) c with
    | none => rw [hs, foldl_iyStep_none] at h; exact Option.noConfusion h
    | some m1 =>
      rw [hs] at h
      have hm1 := iyStep_zero_tail (hl c (by simp)) hz hs
      subst hm1
      have hta1 : lookup (accumTimeave m.timeave m.state m.diagnostics) k = some (a + v) :=
        accumTimeave_lookup_state hta hk
      have hl' : ∀ c' ∈ rest, c' ≠ 0 := fun c' hc' => hl c' (by simp [hc'])
      obtain ⟨h1, h2, h3⟩ :=
        @ih hl' { m with tendencies := zeroLike m.state, time := update_time m.time, timeave := accumTimeave m.timeave m.state m.diagnostics } hz h (a + v) hk hta1
      refine ⟨h1, h2, ?_⟩
      rw [h3, List.length_cons]
      congr 1
      push_cast
      ring

/-! ### Convergence-loop lemmas -/

theorem convergeLoop_calls {f : ℕ} {m : Model} {v : String} {vOld crit : ℚ}
    {cal : ℕ} {m' : Model} {c : ℕ}
    (h : convergeLoop f m v vOld crit cal = some (m', c)) : cal ≤ c := by
  induction f generalizing m vOld cal with
  | zero => exact Option.noConfusion h
  | succ f ih =>
    simp only [convergeLoop] at h
    cases hv : lookup m.state v with
    | none => rw [hv] at h; exact Option.noConfusion h
    | some cur =>
      rw [hv] at h
      dsimp only [] at h
      by_cases hcrit : |vOld - cur| > crit
      · rw [if_pos hcrit] at h
        cases hi : m.integrate_years 1 with
        | none => rw [hi] at h; exact Option.noConfusion h
        | some m1 =>
          rw [hi] at h
          dsimp only [] at h
          exact le_trans (Nat.le_succ cal) (ih h)
      · rw [if_neg hcrit] at h
        have := (Option.some.injEq _ _).mp h
        have h2 : cal = c := congrArg Prod.snd this
        omega

theorem convergeLoop_final {f : ℕ} {m : Model} {v : String} {vOld crit : ℚ}
    {cal : ℕ} {m' : Model} {c : ℕ}
    (h : convergeLoop f m v vOld crit cal = some (m', c)) :
    ∃ prev cur, lookup m'.state v = some cur ∧ ¬ (|prev - cur| > crit) := by
  induction f generalizing m vOld cal with
  | zero => exact Option.noConfusion h
  | succ f ih =>
    simp only [convergeLoop] at h
    cases hv : lookup m.state v with
    | none => rw [hv] at h; exact Option.noConfusion h
    | some cur =>
      rw [hv] at h
      dsimp only [] at h
      by_cases hcrit : |vOld - cur| > crit
      · rw [if_pos hcrit] at h
        cases hi : m.integrate_years 1 with
        | none => rw [hi] at h; exact Option.noConfusion h
        | some m1 =>
          rw [hi] at h
          dsimp only [] at h
          exact ih h
      · rw [if_neg hcrit] at h
        have he := (Option.some.injEq _ _).mp h
        have h1 : m = m' := congrArg Prod.fst he
        exact ⟨vOld, cur, h1 ▸ hv, hcrit⟩

theorem convergeLoop_ret {f : ℕ} {m : Model} {v : String} {vOld crit cur : ℚ}
    {cal : ℕ} (hv : lookup m.state v = some cur) (hc : ¬ (|vOld - cur| > crit)) :
    convergeLoop (f + 1) m v vOld crit cal = some (m, cal) := by
  simp [convergeLoop, hv, hc]

theorem convergeLoop_go {f : ℕ} {m : Model} {v : String} {vOld crit cur : ℚ}
    {cal : ℕ} (hv : lookup m.state v = some cur) (hc : |vOld - cur| > crit) :
    convergeLoop (f + 1) m v vOld crit cal =
      (match m.integrate_years 1 with
       | none => none
       | some m1 => convergeLoop f m1 v cur crit (cal + 1)) := by
  simp [convergeLoop, hv, hc]

theorem convergeVar_inv {fuel : ℕ} {m : Model} {v : String} {crit : ℚ}
    {m' : Model} {c : ℕ} (h : convergeVar fuel m v crit = some (m', c)) :
    ∃ vOld m1, lookup m.state v = some vOld ∧ m.integrate_years 1 = some m1 ∧
      convergeLoop fuel m1 v vOld crit 1 = some (m', c) := by
  unfold convergeVar at h
  cases hv : lookup m.state v with
  | none => rw [hv] at h; exact Option.noConfusion h
  | some vOld =>
    rw [hv] at h
    dsimp only [] at h
    cases hi : m.integrate_years 1 with
    | none => rw [hi] at h; exact Option.noConfusion h
    | some m1 =>
      rw [hi] at h
      dsimp only [] at h
      exact ⟨vOld, m1, rfl, rfl, h⟩

theorem convergeVar_calls {fuel : ℕ} {m : Model} {v : String} {crit : ℚ}
    {m' : Model} {c : ℕ} (h : convergeVar fuel m v crit = some (m', c)) : 1 ≤ c := by
  obtain ⟨vOld, m1, _, _, hl⟩ := convergeVar_inv h
  exact convergeLoop_calls hl

theorem foldl_convergeStep_none (fuel : ℕ) (crit : ℚ) (l : List String) :
    l.foldl (convergeStep fuel crit) none = none := by
  induction l with
  | nil => rfl
  | cons v rest ih => simp only [List.foldl_cons, convergeStep]; exact ih

theorem foldl_convergeStep_calls {fuel : ℕ} {crit : ℚ} {l : List String}
    {mm : Model} {c0 : ℕ} {m' : Model} {c : ℕ}
    (h : l.foldl (convergeStep fuel crit) (some (mm, c0)) = some (m', c)) :
    c0 + l.length ≤ c := by
  induction l generalizing mm c0 with
  | nil =>
    simp only [List.foldl_nil, Option.some.injEq] at h
    have h2 : c0 = c := congrArg Prod.snd h
    simp [← h2]
  | cons v rest ih =>
    rw [List.foldl_cons] at h
    cases hcv : convergeVar fuel mm v crit with
    | none =>
      have hnone : convergeStep fuel crit (some (mm, c0)) v = none := by
        simp [convergeStep, hcv]
      rw [hnone, foldl_convergeStep_none] at h
      exact Option.noConfusion h
    | some p =>
      obtain ⟨mm1, c1⟩ := p
      have hstep : convergeStep fuel crit (some (mm, c0)) v = some (mm1, c0 + c1) := by
        simp [convergeStep, hcv]
      rw [hstep] at h
      have hc1 : 1 ≤ c1 := convergeVar_calls hcv
      have := ih h
      simp only [List.length_cons]
      omega

theorem integrate_converge_calls {fuel : ℕ} {m : Model} {crit : ℚ}
    {m' : Model} {c : ℕ}
    (h : m.integrate_converge fuel crit = some (m', c)) :
    (keys m.state).length ≤ c := by
  have := foldl_convergeStep_calls h
  omega

/-! ### Tendency composition formula -/

theorem computeAll_tendencies {root : Proc} {topdown : Bool} {ts : ℚ} {st dg : Dict}
    {r : ComputeResult} (hnodup : (keys st).Nodup)
    (h : computeAll root topdown ts st dg = some r) :
    keys r.tendencies = keys st ∧
    keys r.tend_explicit = keys st ∧
    keys r.tend_implicit = keys st ∧
    keys r.tend_adjustment = keys st ∧
    r.tend_adjustment = mapValues (fun v => v / ts) r.adjustments ∧
    (∀ k ∈ keys st, lookup r.tendencies k =
      some (getD r.tend_explicit k + getD r.tend_implicit k + getD r.tend_adjustment k)) := by
  obtain ⟨ig, d1, tE, d2, s1, tI, d3, s2, adj, d4, s3, t1, t2, t3,
    h0, h1, h2, h3, h4, h5, h6, h7, h8, h9, hr⟩ := computeAll_inv h
  have hkE : keys tE = keys st := computeType_keys h1
  have hks1 : keys s1 = keys st := applyTend_keys h2
  have hkI : keys tI = keys st := (computeType_keys h3).trans hks1
  have hks2 : keys s2 = keys st := (applyTend_keys h4).trans hks1
  have hkadj : keys adj = keys st := (computeType_keys h5).trans hks2
  have hkA : keys (mapValues (fun v => v / ts) adj) = keys st :=
    (keys_mapValues _ adj).trans hkadj
  have hkt1 : keys t1 = keys st := (accumTend_keys h7).trans (keys_zeroLike st)
  have hkt2 : keys t2 = keys st := (accumTend_keys h8).trans hkt1
  have hkt3 : keys t3 = keys st := (accumTend_keys h9).trans hkt2
  subst hr
  refine ⟨hkt3, hkE, hkI, hkA, rfl, ?_⟩
  intro k hk
  obtain ⟨e, he⟩ := @lookup_isSome_of_mem tE k (by rwa [hkE])
  obtain ⟨i, hi⟩ := @lookup_isSome_of_mem tI k (by rwa [hkI])
  obtain ⟨a, ha⟩ := @lookup_isSome_of_mem (mapValues (fun v => v / ts) adj) k (by rwa [hkA])
  have l1 : lookup t1 k = some (0 + e) := by
    rw [accumTend_lookup (by rwa [hkE]) h7 k, he, lookup_zeroLike_of_mem hk]
    rfl
  have l2 : lookup t2 k = some (0 + e + i) := by
    rw [accumTend_lookup (by rwa [hkI]) h8 k, hi, l1]
    rfl
  have l3 : lookup t3 k = some (0 + e + i + a) := by
    rw [accumTend_lookup (by rwa [hkA]) h9 k, ha, l2]
    rfl
  rw [l3]
  simp only [getD, he, hi, ha, Option.getD_some]
  rw [zero_add]

/-! ### Concrete example models (used by witnesses and counterexamples) -/

/-- A sub-process computing zero tendencies. -/
def zeroComp : Dict → Dict → Dict × Dict := fun s d => (zeroLike s, d)

/-- A single explicit process with zero tendencies. -/
def exTree : Proc := .node .explicit zeroComp []

/-- Example model: one state variable `Ts`, one zero-tendency explicit
process, four steps per year. -/
def MW : Model :=
  { root := exTree
    topdown := true
    state := [("Ts", 10)]
    diagnostics := []
    tendencies := [("Ts", 0)]
    time := mkTime (seconds_per_year / 4)
    timeave := [] }

/-- Example model with a constant explicit tendency of `2` per second. -/
def M3 : Model := { MW with root := .node .explicit (fun _ d => ([("Ts", 2)], d)) [] }

/-- Example model with one step per year. -/
def M1y : Model := { MW with time := mkTime seconds_per_year }

/-- A malformed process returning a tendency key absent from the state. -/
def badTree : Proc := .node .explicit (fun _ d => ([("bogus", 1)], d)) []

/-- Example model with the malformed process. -/
def MBad : Model := { MW with root := badTree }

/-! ### Claims -/

/-- Claim C1: for every process tree and every single call to `compute()`,
every state variable is numerically unchanged when `compute()` returns:
the explicit and implicit tendencies provisionally added to state (each
multiplied by timestep) are exactly subtracted again before return, and
adjustment tendencies are never applied to state at all (the state seen
by the adjustment stage, `state_before_rollback`, carries the explicit
and implicit contributions only, and the rollback subtracts exactly
those). -/
theorem claim_C1_tendency_neutrality :
    (∀ (root : Proc) (topdown : Bool) (ts : ℚ) (st dg : Dict) (r : ComputeResult),
      computeAll root topdown ts st dg = some r →
      r.state = st ∧
      (∃ s1, applyTend st r.tend_explicit ts = some s1 ∧
        applyTend s1 r.tend_implicit ts = some r.state_before_rollback ∧
        rollback r.state_before_rollback r.tend_implicit r.tend_explicit ts = some st)) ∧
    (∀ m m' : Model, m.compute = some m' → m'.state = m.state) := by
  constructor
  · intro root topdown ts st dg r h
    obtain ⟨ig, d1, tE, d2, s1, tI, d3, s2, adj, d4, s3, t1, t2, t3,
      h0, h1, h2, h3, h4, h5, h6, h7, h8, h9, hr⟩ := computeAll_inv h
    have hrt : rollback s2 tI tE ts = some st := roundtrip h2 h4
    have hs3 : s3 = st := by
      rw [h6] at hrt
      exact (Option.some.injEq _ _).mp hrt
    subst hr
    exact ⟨hs3, s1, h2, h4, roundtrip h2 h4⟩
  · intro m m' h
    exact Model.compute_state h

/-- Witness for C1 at a concrete model. -/
theorem claim_C1_witness :
    ({ MW with tendencies := [("Ts", 0)] } : Model).state = MW.state := by
  have h : MW.compute = some { MW with tendencies := [("Ts", 0)] } := by
    norm_num [MW, exTree, Model.compute, computeAll, computeType, computeTypeAux,
      accumTend, addInto, applyTend, rollback, lookup, zeroLike, mapValues,
      processTypes, walk_processes, walk_list, Proc.timeType, Proc.comp, zeroComp,
      mkTime, seconds_per_year, seconds_per_day, days_per_year, List.filter]
  exact claim_C1_tendency_neutrality.2 MW _ h

/-- Claim C2: after every call to `compute()`, the tendencies mapping has
exactly the same keys as state, and for every state variable its value
equals the per-variable sum of the explicit, implicit, and adjustment
tendency contributions, with zero for any variable no sub-process
touched; the adjustment contribution is the adjustment processes'
returned total change divided by timestep. -/
theorem claim_C2_tendency_composition :
    ∀ (root : Proc) (topdown : Bool) (ts : ℚ) (st dg : Dict) (r : ComputeResult),
      (keys st).Nodup →
      computeAll root topdown ts st dg = some r →
      keys r.tendencies = keys st ∧
      (∀ k ∈ keys st, lookup r.tendencies k =
        some (getD r.tend_explicit k + getD r.tend_implicit k + getD r.tend_adjustment k)) ∧
      r.tend_adjustment = mapValues (fun v => v / ts) r.adjustments ∧
      (∀ k ∈ keys st,
        (∀ p ∈ walk_processes topdown root, ∀ s d, ∀ kv ∈ (p.comp s d).1, kv.1 ≠ k) →
        lookup r.tendencies k = some 0) := by
  intro root topdown ts st dg r hnd h
  obtain ⟨hk1, hkE, hkI, hkA, hadj, hform⟩ := computeAll_tendencies hnd h
  refine ⟨hk1, hform, hadj, ?_⟩
  intro k hk hu
  obtain ⟨ig, d1, tE, d2, s1, tI, d3, s2, adj, d4, s3, t1, t2, t3,
    h0, h1, h2, h3, h4, h5, h6, h7, h8, h9, hr⟩ := computeAll_inv h
  have hu' : ∀ t' : TimeType, ∀ q ∈ processTypes root topdown t',
      ∀ s dq, ∀ kv ∈ (q.comp s dq).1, kv.1 ≠ k :=
    fun t' q hq => hu q (mem_walk_of_mem_processTypes hq)
  have hE0 : lookup tE k = some 0 :=
    computeType_lookup_untouched hk (hu' .explicit) h1
  have hI0 : lookup tI k = some 0 :=
    computeType_lookup_untouched (by rw [applyTend_keys h2]; exact hk)
      (hu' .implicit) h3
  have hA0 : lookup adj k = some 0 :=
    computeType_lookup_untouched
      (by rw [applyTend_keys h4, applyTend_keys h2]; exact hk)
      (hu' .adjustment) h5
  have := hform k hk
  rw [this]
  subst hr
  simp only [getD, hE0, hI0, lookup_mapValues, hA0, Option.map_some, Option.getD_some]
  norm_num

/-- Witness for C2 at a concrete model. -/
theorem claim_C2_witness :
    keys (([("Ts", 0)] : Dict)) = keys (([("Ts", 10)] : Dict)) := by
  have h : computeAll exTree true (seconds_per_year / 4) [("Ts", 10)] [] =
      some ⟨[("Ts", 0)], [("Ts", 10)], [], [("Ts", 0)], [("Ts", 0)], [("Ts", 0)],
            [("Ts", 0)], [("Ts", 10)]⟩ := by
    norm_num [exTree, computeAll, computeType, computeTypeAux,
      accumTend, addInto, applyTend, rollback, lookup, zeroLike, mapValues,
      processTypes, walk_processes, walk_list, Proc.timeType, Proc.comp, zeroComp,
      List.filter]
  exact (claim_C2_tendency_composition exTree true (seconds_per_year / 4)
    [("Ts", 10)] [] _ (by decide) h).1

/-- Claim C10: if any sub-process returns a tendency mapping containing a
key that is not a key of state, `compute()` fails with a missing-key
fault when accumulating into the per-type tendency dictionary, rather
than silently dropping the entry or creating a new state key; and every
tendency dictionary the compositor builds has keys exactly equal to the
keys of state. -/
theorem claim_C10_missing_key :
    (∀ (ps : List Proc) (st dg t d : Dict),
      computeType ps st dg = some (t, d) → keys t = keys st) ∧
    (∀ (root : Proc) (topdown : Bool) (ts : ℚ) (st dg : Dict),
      (∃ p ∈ walk_processes topdown root, ∀ s d, ∃ kv ∈ (p.comp s d).1, kv.1 ∉ keys st) →
      computeAll root topdown ts st dg = none) ∧
    (∀ m : Model,
      (∃ p ∈ walk_processes m.topdown m.root, ∀ s d,
        ∃ kv ∈ (p.comp s d).1, kv.1 ∉ keys m.state) →
      m.compute = none) := by
  have hbad : ∀ (root : Proc) (topdown : Bool) (ts : ℚ) (st dg : Dict),
      (∃ p ∈ walk_processes topdown root, ∀ s d, ∃ kv ∈ (p.comp s d).1, kv.1 ∉ keys st) →
      computeAll root topdown ts st dg = none := by
    intro root topdown ts st dg ⟨p, hp, hout⟩
    have hmem : p ∈ processTypes root topdown p.timeType := by
      simp only [processTypes, List.mem_filter]
      exact ⟨hp, by simp⟩
    have hstage : ∀ st' dg' : Dict, keys st' = keys st →
        computeType (processTypes root topdown p.timeType) st' dg' = none := by
      intro st' dg' hkeys
      refine computeTypeAux_none hmem ?_ (zeroLike st') dg' ?_
      · intro d'
        obtain ⟨kv, hkv, hnk⟩ := hout st' d'
        exact ⟨kv, hkv, by rw [hkeys]; exact hnk⟩
      · rw [keys_zeroLike, hkeys]
    rw [computeAll]
    cases htp : p.timeType with
    | diagnostic =>
      rw [htp] at hstage
      rw [hstage st dg rfl]
    | explicit =>
      rw [htp] at hstage
      cases h0 : computeType (processTypes root topdown .diagnostic) st dg with
      | none => rfl
      | some x0 =>
        obtain ⟨ig, d1⟩ := x0
        dsimp only []
        rw [hstage st d1 rfl]
    | implicit =>
      rw [htp] at hstage
      cases h0 : computeType (processTypes root topdown .diagnostic) st dg with
      | none => rfl
      | some x0 =>
        obtain ⟨ig, d1⟩ := x0
        dsimp only []
        cases h1 : computeType (processTypes root topdown .explicit) st d1 with
        | none => rfl
        | some x1 =>
          obtain ⟨tE, d2⟩ := x1
          dsimp only []
          cases h2 : applyTend st tE ts with
          | none => rfl
          | some s1 =>
            dsimp only []
            rw [hstage s1 d2 (applyTend_keys h2)]
    | adjustment =>
      rw [htp] at hstage
      cases h0 : computeType (processTypes root topdown .diagnostic) st dg with
      | none => rfl
      | some x0 =>
        obtain ⟨ig, d1⟩ := x0
        dsimp only []
        cases h1 : computeType (processTypes root topdown .explicit) st d1 with
        | none => rfl
        | some x1 =>
          obtain ⟨tE, d2⟩ := x1
          dsimp only []
          cases h2 : applyTend st tE ts with
          | none => rfl
          | some s1 =>
            dsimp only []
            cases h3 : computeType (processTypes root topdown .implicit) s1 d2 with
            | none => rfl
            | some x3 =>
              obtain ⟨tI, d3⟩ := x3
              dsimp only []
              cases h4 : applyTend s1 tI ts with
              | none => rfl
              | some s2 =>
                dsimp only []
                rw [hstage s2 d3 ((applyTend_keys h4).trans (applyTend_keys h2))]
  refine ⟨fun ps st dg t d h => computeType_keys h, hbad, ?_⟩
  intro m hm
  unfold Model.compute
  rw [hbad m.root m.topdown m.time.timestep m.state m.diagnostics hm]

/-- Witness for C10 at a concrete malformed model. -/
theorem claim_C10_witness : MBad.compute = none := by
  refine claim_C10_missing_key.2.2 MBad ⟨badTree, ?_, ?_⟩
  · exact List.mem_singleton.mpr rfl
  · intro s d
    exact ⟨("bogus", 1), by simp [MBad, badTree, Proc.comp], by decide⟩

/-- Claim C4: the per-process time-advance operation increments `steps`
by 1 and `days_elapsed` by `timestep / seconds_per_day`; if
`day_of_year_index >= num_steps_per_year - 1` it resets the index to 0
and increments `years_elapsed`, otherwise it increments the index.  In
particular, for a fresh process with `num_steps_per_year = 4`, after
exactly 4 `step_forward()` calls `years_elapsed` has increased by 1 and
`day_of_year_index` equals 0. -/
theorem claim_C4_calendar :
    (∀ t : TimeRec,
      (update_time t).steps = t.steps + 1 ∧
      (update_time t).days_elapsed = t.days_elapsed + t.timestep / seconds_per_day ∧
      (((t.day_of_year_index : ℚ) ≥ t.num_steps_per_year - 1) →
        (update_time t).day_of_year_index = 0 ∧
        (update_time t).years_elapsed = t.years_elapsed + 1) ∧
      ((¬ ((t.day_of_year_index : ℚ) ≥ t.num_steps_per_year - 1)) →
        (update_time t).day_of_year_index = t.day_of_year_index + 1 ∧
        (update_time t).years_elapsed = t.years_elapsed)) ∧
    (∀ m m' : Model, m.time = mkTime (seconds_per_year / 4) →
      stepN m 4 = some m' →
      m'.time.years_elapsed = m.time.years_elapsed + 1 ∧
      m'.time.day_of_year_index = 0) := by
  constructor
  · intro t
    obtain ⟨h1, h2, _, _, h5, h6⟩ := update_time_char t
    exact ⟨h1, h2, h5, h6⟩
  · intro m m' hts h
    have ht := stepN_time h
    rw [hts] at ht
    have hiter : update_time^[4] (mkTime (seconds_per_year / 4)) =
        update_time (update_time (update_time (update_time (mkTime (seconds_per_year / 4))))) := by
      rw [show (4:ℕ) = 3 + 1 from rfl, Function.iterate_succ_apply']
      rw [show (3:ℕ) = 2 + 1 from rfl, Function.iterate_succ_apply']
      rw [show (2:ℕ) = 1 + 1 from rfl, Function.iterate_succ_apply']
      rw [show (1:ℕ) = 0 + 1 from rfl, Function.iterate_succ_apply',
        Function.iterate_zero_apply]
    set t0 := mkTime (seconds_per_year / 4) with ht0
    set t1 := update_time t0 with ht1
    set t2 := update_time t1 with ht2
    set t3 := update_time t2 with ht3
    have hn0 : t0.num_steps_per_year = 4 := by
      rw [ht0]
      show seconds_per_year / (seconds_per_year / 4) = 4
      norm_num [seconds_per_year, seconds_per_day, days_per_year]
    have hd0 : t0.day_of_year_index = 0 := rfl
    have hy0 : t0.years_elapsed = 0 := rfl
    have c0 := update_time_char t0
    have hc0 : ¬ ((t0.day_of_year_index : ℚ) ≥ t0.num_steps_per_year - 1) := by
      rw [hd0, hn0]
      norm_num
    have hd1 : t1.day_of_year_index = 1 := by rw [ht1, (c0.2.2.2.2.2 hc0).1, hd0]
    have hy1 : t1.years_elapsed = 0 := by rw [ht1, (c0.2.2.2.2.2 hc0).2, hy0]
    have hn1 : t1.num_steps_per_year = 4 := by rw [ht1, c0.2.2.2.1, hn0]
    have c1 := update_time_char t1
    have hc1 : ¬ ((t1.day_of_year_index : ℚ) ≥ t1.num_steps_per_year - 1) := by
      rw [hd1, hn1]
      norm_num
    have hd2 : t2.day_of_year_index = 2 := by rw [ht2, (c1.2.2.2.2.2 hc1).1, hd1]
    have hy2 : t2.years_elapsed = 0 := by rw [ht2, (c1.2.2.2.2.2 hc1).2, hy1]
    have hn2 : t2.num_steps_per_year = 4 := by rw [ht2, c1.2.2.2.1, hn1]
    have c2 := update_time_char t2
    have hc2 : ¬ ((t2.day_of_year_index : ℚ) ≥ t2.num_steps_per_year - 1) := by
      rw [hd2, hn2]
      norm_num
    have hd3 : t3.day_of_year_index = 3 := by rw [ht3, (c2.2.2.2.2.2 hc2).1, hd2]
    have hy3 : t3.years_elapsed = 0 := by rw [ht3, (c2.2.2.2.2.2 hc2).2, hy2]
    have hn3 : t3.num_steps_per_year = 4 := by rw [ht3, c2.2.2.2.1, hn2]
    have c3 := update_time_char t3
    have hc3 : ((t3.day_of_year_index : ℚ) ≥ t3.num_steps_per_year - 1) := by
      rw [hd3, hn3]
      norm_num
    have hd4 : (update_time t3).day_of_year_index = 0 := (c3.2.2.2.2.1 hc3).1
    have hy4 : (update_time t3).years_elapsed = 1 := by
      rw [(c3.2.2.2.2.1 hc3).2, hy3]
    rw [ht, hiter, hts]
    exact ⟨by rw [hy4]; rw [show (mkTime (seconds_per_year / 4)).years_elapsed = 0 from rfl], hd4⟩

/-- The model after four `step_forward()` calls from `MW`. -/
def c4res : Model := (stepN MW 4).getD MW

/-- Witness for C4 at a concrete model. -/
theorem claim_C4_witness :
    c4res.time.years_elapsed = MW.time.years_elapsed + 1 ∧
    c4res.time.day_of_year_index = 0 := by
  have h : stepN MW 4 = some c4res := by
    norm_num [MW, exTree, c4res, stepN, Model.step_forward, Model.compute, computeAll,
      computeType, computeTypeAux, accumTend, addInto, applyTend, rollback, lookup,
      zeroLike, mapValues, processTypes, walk_processes, walk_list, Proc.timeType,
      Proc.comp, zeroComp, mkTime, update_time, do_new_calendar_year,
      seconds_per_year, seconds_per_day, days_per_year, List.filter]
  exact claim_C4_calendar.2 MW c4res rfl h

/-- Claim C5: for every non-negative `years`, `integrate_years(years)`
performs exactly `floor(num_steps_per_year * years)` calls to
`step_forward()` (each call advances the step counter by exactly one, so
the counter advances by that floor), and `integrate_days(days)` behaves
identically to `integrate_years(days / days_per_year)`. -/
theorem claim_C5_integrate_counts :
    (∀ (m : Model) (y : ℚ) (m' : Model), 0 ≤ y → 0 ≤ m.time.num_steps_per_year →
      m.integrate_years y = some m' →
      m'.time.steps = m.time.steps + (⌊m.time.num_steps_per_year * y⌋).toNat) ∧
    (∀ m m' : Model, m.step_forward = some m' → m'.time.steps = m.time.steps + 1) ∧
    (∀ (m : Model) (d : ℚ), m.integrate_days d = m.integrate_years (d / days_per_year)) := by
  refine ⟨?_, fun m m' h => Model.step_forward_steps h, fun m d => rfl⟩
  intro m y m' hy hn h
  have := integrate_years_steps h
  rwa [pyInt_nonneg (mul_nonneg hn hy)] at this

/-- The model after `integrate_years(1)` from `MW`. -/
def c5res : Model := (MW.integrate_years 1).getD MW

/-- Witness for C5 at a concrete model. -/
theorem claim_C5_witness :
    c5res.time.steps = MW.time.steps + (⌊MW.time.num_steps_per_year * 1⌋).toNat := by
  have ht : Int.toNat (4:ℤ) = 4 := by decide
  have hr : List.range 4 = [0, 1, 2, 3] := by decide
  have h : MW.integrate_years 1 = some c5res := by
    norm_num [MW, exTree, c5res, Model.integrate_years, iyStep, Model.step_forward,
      Model.compute, computeAll, computeType, computeTypeAux, accumTend, addInto,
      applyTend, rollback, lookup, zeroLike, mapValues, updateDict, setVal,
      accumTimeave, processTypes, walk_processes, walk_list, Proc.timeType,
      Proc.comp, zeroComp, mkTime, update_time, do_new_calendar_year, pyInt,
      seconds_per_year, seconds_per_day, days_per_year, List.filter, ht, hr]
  exact claim_C5_integrate_counts.1 MW 1 c5res (by norm_num)
    (by norm_num [MW, mkTime, seconds_per_year, seconds_per_day, days_per_year]) h

/-- `MW` after one `update_time`, so its step counter is `1`. -/
def MW9 : Model := { MW with time := update_time MW.time }

/-- Counterexample to C9 as stated: the `timestep` property setter does
change the time record — it rebuilds it and resets the step counter. -/
theorem claim_C9_counterexample :
    MW9.time.steps = 1 ∧ (MW9.timestep_set seconds_per_day).time.steps = 0 ∧
      (1:ℕ) ≠ 0 := by
  refine ⟨?_, rfl, by norm_num⟩
  show (update_time MW.time).steps = 1
  rw [update_time_steps]
  rfl

/-- Claim C9 (amended): the time record is advanced exactly once per
step, by `update_time`, after the tendencies are applied; `compute` and
`compute_diagnostics` leave the whole time record unchanged; but the
`timestep` setter (and therefore `set_timestep`) rebuilds the entire
time record, resetting every counter to zero. -/
theorem claim_C9_amended :
    (∀ m m' : Model, m.compute = some m' → m'.time = m.time) ∧
    (∀ (m : Model) (n : ℕ) (m' : Model),
      m.compute_diagnostics n = some m' → m'.time = m.time) ∧
    (∀ m m' : Model, m.step_forward = some m' → m'.time = update_time m.time) ∧
    (∀ (m : Model) (v : ℚ), (m.timestep_set v).time = mkTime v ∧
      (m.timestep_set v).time.steps = 0) ∧
    (∀ (m : Model) (t : ℚ) (no : Option ℚ),
      (m.set_timestep t no).time =
        mkTime (match no with | some nn => seconds_per_year / nn | none => t)) := by
  refine ⟨fun m m' h => (Model.compute_frame h).2.2.1,
    fun m n m' h => (Model.compute_diagnostics_state h).2,
    fun m m' h => Model.step_forward_time h,
    fun m v => ⟨rfl, rfl⟩,
    fun m t no => ?_⟩
  cases no <;> rfl

/-- The model after one `step_forward()` from `MW`. -/
def c9res : Model := (MW.step_forward).getD MW

/-- Witness for the amended C9 at a concrete model. -/
theorem claim_C9_witness : c9res.time = update_time MW.time := by
  have h : MW.step_forward = some c9res := by
    norm_num [MW, exTree, c9res, Model.step_forward, Model.compute, computeAll,
      computeType, computeTypeAux, accumTend, addInto, applyTend, rollback, lookup,
      zeroLike, mapValues, processTypes, walk_processes, walk_list, Proc.timeType,
      Proc.comp, zeroComp, mkTime, update_time, do_new_calendar_year,
      seconds_per_year, seconds_per_day, days_per_year, List.filter]
  exact claim_C9_amended.2.2.1 MW c9res h

/-- Claim C3: for every process tree whose sub-processes are all
explicit with constant tendencies, a single `step_forward()` changes
each state variable `v` by exactly `tendencies[v] * timestep`, where
`tendencies` is the mapping computed by `compute()` during that call;
and `step_forward` is the only exposed operation that permanently
advances state (`compute`, `compute_diagnostics`, `set_timestep` and the
`timestep` setter leave the state unchanged). -/
theorem claim_C3_step_application :
    (∀ m m' : Model,
      (∀ p ∈ walk_processes m.topdown m.root, p.timeType = TimeType.explicit) →
      (∀ p ∈ walk_processes m.topdown m.root, ∀ s d s' d',
        (p.comp s d).1 = (p.comp s' d').1) →
      m.step_forward = some m' →
      ∀ mc, m.compute = some mc →
        mc.state = m.state ∧
        ∀ k v, lookup m.state k = some v →
          lookup m'.state k = some (v + getD mc.tendencies k * m.time.timestep)) ∧
    (∀ m mc : Model, m.compute = some mc → mc.state = m.state) ∧
    (∀ (m : Model) (n : ℕ) (mc : Model),
      m.compute_diagnostics n = some mc → mc.state = m.state) ∧
    (∀ (m : Model) (v : ℚ), (m.timestep_set v).state = m.state) ∧
    (∀ (m : Model) (t : ℚ) (no : Option ℚ),
      (m.set_timestep t no).state = m.state) := by
  refine ⟨?_, fun m mc h => Model.compute_state h,
    fun m n mc h => (Model.compute_diagnostics_state h).1,
    fun m v => rfl, fun m t no => by cases no <;> rfl⟩
  intro m m' hexp hconst hstep mc hmc
  obtain ⟨m1, st1, hc, ha, he⟩ := Model.step_forward_inv hstep
  have hmc1 : mc = m1 := by
    rw [hmc] at hc
    exact (Option.some.injEq _ _).mp hc
  subst hmc1
  refine ⟨Model.compute_state hmc, ?_⟩
  intro k v hv
  have hstate : mc.state = m.state := Model.compute_state hmc
  have hts : mc.time = m.time := (Model.compute_frame hmc).2.2.1
  have hv' : lookup mc.state k = some v := by rw [hstate]; exact hv
  obtain ⟨t, ht, hl⟩ := applyTend_lookup ha hv'
  have hm' : m'.state = st1 := by rw [he]
  rw [hm', hl, hts]
  simp [getD, ht]

/-- The model after one `step_forward()` from the constant-tendency
model `M3`. -/
def c3res : Model := (M3.step_forward).getD M3

/-- The result of `compute()` on `M3`. -/
def c3mc : Model := (M3.compute).getD M3

/-- Witness for C3 at a concrete constant-tendency model. -/
theorem claim_C3_witness :
    lookup c3res.state "Ts" = some (10 + getD c3mc.tendencies "Ts" * M3.time.timestep) := by
  have hstep : M3.step_forward = some c3res := by
    norm_num [M3, MW, exTree, c3res, Model.step_forward, Model.compute, computeAll,
      computeType, computeTypeAux, accumTend, addInto, applyTend, rollback, lookup,
      zeroLike, mapValues, processTypes, walk_processes, walk_list, Proc.timeType,
      Proc.comp, zeroComp, mkTime, update_time, do_new_calendar_year,
      seconds_per_year, seconds_per_day, days_per_year, List.filter]
  have hmc : M3.compute = some c3mc := by
    norm_num [M3, MW, exTree, c3mc, Model.compute, computeAll,
      computeType, computeTypeAux, accumTend, addInto, applyTend, rollback, lookup,
      zeroLike, mapValues, processTypes, walk_processes, walk_list, Proc.timeType,
      Proc.comp, zeroComp, mkTime, seconds_per_year, seconds_per_day, days_per_year,
      List.filter]
  have hexp : ∀ p ∈ walk_processes M3.topdown M3.root, p.timeType = TimeType.explicit := by
    intro p hp
    have := List.mem_singleton.mp hp
    subst this
    rfl
  have hconst : ∀ p ∈ walk_processes M3.topdown M3.root, ∀ s d s' d',
      (p.comp s d).1 = (p.comp s' d').1 := by
    intro p hp s d s' d'
    have := List.mem_singleton.mp hp
    subst this
    rfl
  exact (claim_C3_step_application.1 M3 c3res hexp hconst hstep c3mc hmc).2 "Ts" 10 rfl

/-- Claim C8: for every process tree whose processes all produce zero
tendencies and leave the diagnostics unchanged (so state and diagnostics
are constant across steps), after `integrate_years(1)` the time average
equals the state value for every state variable. -/
theorem claim_C8_time_average :
    ∀ (m : Model), ZeroProcs m → 1 ≤ m.time.num_steps_per_year →
      ∀ m', m.integrate_years 1 = some m' →
      ∀ k ∈ keys m.state, lookup m'.timeave k = lookup m.state k := by
  intro m hz hn m' h k hk
  obtain ⟨mf, hf, he⟩ := integrate_years_inv h
  set n := (pyInt (m.time.num_steps_per_year * 1)).toNat with hndef
  have h0 : (0:ℚ) ≤ m.time.num_steps_per_year * 1 := by
    rw [mul_one]
    exact le_trans zero_le_one hn
  have hfl : (1:ℤ) ≤ ⌊m.time.num_steps_per_year * 1⌋ := by
    rw [Int.le_floor]
    rw [mul_one]
    exact_mod_cast hn
  have hn1 : 1 ≤ n := by
    rw [hndef, pyInt_nonneg h0]
    omega
  obtain ⟨n', hn'⟩ : ∃ n', n = n' + 1 := ⟨n - 1, by omega⟩
  rw [hn', List.range_succ_eq_map, List.foldl_cons] at hf
  obtain ⟨v, hv⟩ := lookup_isSome_of_mem hk
  cases hs : iyStep (some m) 0 with
  | none => rw [hs, foldl_iyStep_none] at hf; exact Option.noConfusion hf
  | some m1 =>
    rw [hs] at hf
    have hm1 := iyStep_zero_head hz hs
    subst hm1
    have hta0 : lookup (zeroLike (updateDict m.state m.diagnostics)) k = some 0 :=
      lookup_zeroLike_of_mem (mem_keys_updateDict_left hk)
    have hta1 : lookup (accumTimeave (zeroLike (updateDict m.state m.diagnostics))
        m.state m.diagnostics) k = some (0 + v) :=
      accumTimeave_lookup_state hta0 hv
    have hl : ∀ c ∈ (List.range n').map Nat.succ, c ≠ 0 := by
      intro c hc
      obtain ⟨x, _, hx⟩ := List.mem_map.mp hc
      omega
    obtain ⟨hst, hdg, hta⟩ :=
      @foldl_iyStep_zero ((List.range n').map Nat.succ) hl
        { m with tendencies := zeroLike m.state, time := update_time m.time,
                 timeave := (accumTimeave (zeroLike (updateDict m.state m.diagnostics))
                   m.state m.diagnostics) }
        mf hz hf k (0 + v) v hv hta1
    have hlen : ((List.range n').map Nat.succ).length = n' := by
      rw [List.length_map, List.length_range]
    rw [hlen] at hta
    rw [he]
    show lookup (mapValues (fun x => x / ((n : ℕ) : ℚ)) mf.timeave) k = lookup m.state k
    rw [lookup_mapValues, hta, hv]
    have hval : (0 + v) + (n' : ℚ) * v = (n : ℚ) * v := by
      rw [hn']
      push_cast
      ring
    have hne : ((n : ℕ) : ℚ) ≠ 0 := Nat.cast_ne_zero.mpr (by omega)
    simp only [Option.map_some']
    rw [hval, mul_div_cancel_left₀ _ hne]

/-- The model after `integrate_years(1)` from `MW` (constant state and
diagnostics). -/
def c8res : Model := (MW.integrate_years 1).getD MW

/-- Witness for C8 at a concrete model. -/
theorem claim_C8_witness : lookup c8res.timeave "Ts" = lookup MW.state "Ts" := by
  have ht : Int.toNat (4:ℤ) = 4 := by decide
  have hr : List.range 4 = [0, 1, 2, 3] := by decide
  have h : MW.integrate_years 1 = some c8res := by
    norm_num [MW, exTree, c8res, Model.integrate_years, iyStep, Model.step_forward,
      Model.compute, computeAll, computeType, computeTypeAux, accumTend, addInto,
      applyTend, rollback, lookup, zeroLike, mapValues, updateDict, setVal,
      accumTimeave, processTypes, walk_processes, walk_list, Proc.timeType,
      Proc.comp, zeroComp, mkTime, update_time, do_new_calendar_year, pyInt,
      seconds_per_year, seconds_per_day, days_per_year, List.filter, ht, hr]
  refine claim_C8_time_average MW ?_ ?_ c8res h "Ts" ?_
  · intro p hp s d
    have := List.mem_singleton.mp hp
    subst this
    rfl
  · norm_num [MW, mkTime, seconds_per_year, seconds_per_day, days_per_year]
  · simp [MW, keys]

/-! ### C7: the skip-first-iteration variant described by the claim -/

/-- Modelled from the spec: the integration-loop body the claim
describes, which on the first iteration only initializes the zeroed
accumulator and does NOT add the current values, adding them only on
iterations after the first.  (The source adds on every iteration, the
first included; this definition exists to be compared with `iyStep`.) -/
def iyStepSkipFirst (acc : Option Model) (count : ℕ) : Option Model :=
  match acc with
  | none => none
  | some m =>
    match m.step_forward with
    | none => none
    | some m1 =>
      if count = 0 then
        some { m1 with timeave := zeroLike (updateDict m1.state m1.diagnostics) }
      else
        some { m1 with timeave := accumTimeave m1.timeave m1.state m1.diagnostics }

/-- Modelled from the spec: `integrate_years` as the claim describes it,
built on `iyStepSkipFirst`. -/
def integrate_years_skip_first (m : Model) (years : ℚ) : Option Model :=
  let numsteps := (pyInt (m.time.num_steps_per_year * years)).toNat
  match (List.range numsteps).foldl iyStepSkipFirst (some m) with
  | none => none
  | some m' =>
    some { m' with timeave := mapValues (fun v => v / (numsteps : ℚ)) m'.timeave }

/-- Counterexample to C7 as stated: on a one-step-per-year model with
constant nonzero state, the source's `integrate_years(1)` produces a
time average equal to the state (the current value IS added on the first
iteration), whereas the claim's skip-the-first-iteration semantics would
produce zero. -/
theorem claim_C7_counterexample :
    (M1y.integrate_years 1).map (fun m => lookup m.timeave "Ts") = some (some 10) ∧
    (integrate_years_skip_first M1y 1).map (fun m => lookup m.timeave "Ts") =
      some (some 0) ∧
    (10:ℚ) ≠ 0 := by
  have ht : Int.toNat (1:ℤ) = 1 := by decide
  have hr : List.range 1 = [0] := by decide
  refine ⟨?_, ?_, by norm_num⟩ <;>
    norm_num [M1y, MW, exTree, Model.integrate_years, integrate_years_skip_first,
      iyStep, iyStepSkipFirst, Model.step_forward, Model.compute, computeAll,
      computeType, computeTypeAux, accumTend, addInto, applyTend, rollback, lookup,
      zeroLike, mapValues, updateDict, setVal, accumTimeave, processTypes,
      walk_processes, walk_list, Proc.timeType, Proc.comp, zeroComp, mkTime,
      update_time, do_new_calendar_year, pyInt, seconds_per_year, seconds_per_day,
      days_per_year, List.filter, ht, hr]

/-- Claim C7 (amended): during `integrate_years`, the accumulator is
initialized to zero from a copy of state updated with diagnostics on the
very first iteration only, and the current value of each tracked
variable is added into the accumulator on EVERY iteration, the first
included; variables found in neither state nor diagnostics are silently
skipped; after the loop every accumulated value is divided by the total
step count. -/
theorem claim_C7_amended :
    (∀ m m1 : Model, m.step_forward = some m1 →
      iyStep (some m) 0 = some { m1 with
        timeave := (accumTimeave (zeroLike (updateDict m1.state m1.diagnostics))
          m1.state m1.diagnostics) }) ∧
    (∀ (m m1 : Model) (c : ℕ), c ≠ 0 → m.step_forward = some m1 →
      iyStep (some m) c = some { m1 with
        timeave := (accumTimeave m1.timeave m1.state m1.diagnostics) }) ∧
    (∀ (ta st dg : Dict) (k : String), lookup st k = none → lookup dg k = none →
      lookup (accumTimeave ta st dg) k = lookup ta k) ∧
    (∀ (m : Model) (y : ℚ) (m' : Model), m.integrate_years y = some m' →
      ∃ mf, (List.range (pyInt (m.time.num_steps_per_year * y)).toNat).foldl
          iyStep (some m) = some mf ∧
        m' = { mf with timeave := (mapValues
          (fun v => v / ((pyInt (m.time.num_steps_per_year * y)).toNat : ℚ))
          mf.timeave) }) := by
  refine ⟨?_, ?_, fun ta st dg k h1 h2 => accumTimeave_lookup_skip h1 h2,
    fun m y m' h => integrate_years_inv h⟩
  · intro m m1 h
    unfold iyStep
    dsimp only []
    rw [h]
    dsimp only []
    rw [if_pos rfl]
  · intro m m1 c hc h
    unfold iyStep
    dsimp only []
    rw [h]
    dsimp only []
    rw [if_neg hc]

/-- Witness for the amended C7: a variable in neither state nor
diagnostics is silently skipped by the accumulation. -/
theorem claim_C7_witness :
    lookup (accumTimeave [("x", 3)] [("y", 1)] []) "x" =
      lookup (([("x", 3)] : Dict)) "x" :=
  claim_C7_amended.2.2.1 [("x", 3)] [("y", 1)] [] "x" (by decide) (by decide)

/-- Counterexample to C6 as stated: on a model whose state does not
change, `integrate_converge` returns after a single `integrate_years(1)`
call — the convergence check IS performed right after the first
full-year integration, so "at least two calls with no check before the
second" fails. -/
theorem claim_C6_counterexample :
    (Model.integrate_converge 5 MW (1/1000)).map Prod.snd = some 1 ∧ 1 < 2 := by
  have ht : Int.toNat (4:ℤ) = 4 := by decide
  have hr : List.range 4 = [0, 1, 2, 3] := by decide
  refine ⟨?_, by norm_num⟩
  norm_num [MW, exTree, Model.integrate_converge, convergeStep, convergeVar,
    convergeLoop, keys, Model.integrate_years, iyStep, Model.step_forward,
    Model.compute, computeAll, computeType, computeTypeAux, accumTend, addInto,
    applyTend, rollback, lookup, zeroLike, mapValues, updateDict, setVal,
    accumTimeave, processTypes, walk_processes, walk_list, Proc.timeType,
    Proc.comp, zeroComp, mkTime, update_time, do_new_calendar_year, pyInt,
    seconds_per_year, seconds_per_day, days_per_year, List.filter, ht, hr]

/-- Claim C6 (amended): `integrate_converge(crit)` makes at least one
`integrate_years(1)` call per watched state variable before it can
return; a convergence check is performed after every full-year
integration, the first included: the loop returns exactly when the
maximum absolute change of the watched variable between successive
snapshots is at most `crit`, and otherwise performs another full-year
integration. -/
theorem claim_C6_amended :
    (∀ (fuel : ℕ) (m : Model) (v : String) (crit : ℚ) (m' : Model) (c : ℕ),
      convergeVar fuel m v crit = some (m', c) → 1 ≤ c) ∧
    (∀ (fuel : ℕ) (m : Model) (crit : ℚ) (m' : Model) (c : ℕ),
      m.integrate_converge fuel crit = some (m', c) → (keys m.state).length ≤ c) ∧
    (∀ (f : ℕ) (m : Model) (v : String) (vOld crit cur : ℚ) (cal : ℕ),
      lookup m.state v = some cur → ¬ (|vOld - cur| > crit) →
      convergeLoop (f + 1) m v vOld crit cal = some (m, cal)) ∧
    (∀ (f : ℕ) (m : Model) (v : String) (vOld crit cur : ℚ) (cal : ℕ),
      lookup m.state v = some cur → |vOld - cur| > crit →
      convergeLoop (f + 1) m v vOld crit cal =
        (match m.integrate_years 1 with
         | none => none
         | some m1 => convergeLoop f m1 v cur crit (cal + 1))) ∧
    (∀ (f : ℕ) (m : Model) (v : String) (vOld crit : ℚ) (cal : ℕ)
      (m' : Model) (c : ℕ),
      convergeLoop f m v vOld crit cal = some (m', c) →
      ∃ prev cur, lookup m'.state v = some cur ∧ ¬ (|prev - cur| > crit)) :=
  ⟨fun _ _ _ _ _ _ h => convergeVar_calls h,
   fun _ _ _ _ _ h => integrate_converge_calls h,
   fun _ _ _ _ _ _ _ hv hc => convergeLoop_ret hv hc,
   fun _ _ _ _ _ _ _ hv hc => convergeLoop_go hv hc,
   fun _ _ _ _ _ _ _ _ h => convergeLoop_final h⟩

/-- Witness for the amended C6: the loop returns immediately when the
observed change is within the tolerance. -/
theorem claim_C6_witness :
    convergeLoop 1 MW "Ts" 10 (1/1000) 1 = some (MW, 1) :=
  claim_C6_amended.2.2.1 0 MW "Ts" 10 (1/1000) 10 1 rfl (by norm_num)

end Climlab